import Mathlib

/-!
Shallow embedding of the PATRICIA (radix) tree implementation in
`src/patricia.cpp`, together with proofs about the claims of the
specification.

Modelling conventions:
* a C string (`char *` that is non-null) is a `List Char` holding the bytes
  before the NUL terminator;
* `malloc` never fails in the model, so the only failures of `substring`
  are the explicit sanity checks of the C code;
* the pointer comparison `cur_node == tree->root` is modelled by the
  `is_root` flag, which is `true` exactly for the top-level call that every
  public entry point makes with `tree->root`;
* mutated trees are modelled functionally: every mutating routine returns
  the new value of the node it was given.
-/

set_option maxHeartbeats 2000000
set_option maxRecDepth 10000

namespace Patricia

/-- Bytes of a NUL-terminated C string (the terminator is not stored). -/
abbrev CStr := List Char

/-- Value read when C code inspects the NUL terminator, e.g. `s[0]` of `""`. -/
def nulChar : Char := Char.ofNat 0

/-- Model of `s[0]` for a C string: first byte, or the terminator if empty. -/
def keyHead (s : CStr) : Char := s.headD nulChar

/-- Model of `patricia_node_t`: a key fragment and the ordered child list. -/
inductive PNode : Type where
  | node (key : CStr) (children : List PNode) : PNode

/-- Key fragment stored in a node (`node->key`). -/
def PNode.key : PNode → CStr
  | .node k _ => k

/-- Child list of a node (`node->children`). -/
def PNode.children : PNode → List PNode
  | .node _ cs => cs

/-- Model of `patricia_tree_t`: a wrapper around the root node. -/
structure patricia_tree_t where
  root : PNode

/-- Model of `substring(str, begin, len)`: the C code returns NULL when the
string is null/empty or the requested range is out of bounds, and otherwise
allocates a copy of `str[begin .. begin+len)`.  `none` models the NULL
result (allocation itself never fails in the model). -/
def substring (str : CStr) (begin_ len : Nat) : Option CStr :=
  if str = [] ∨ str.length < begin_ ∨ str.length < begin_ + len then none
  else some ((str.drop begin_).take len)

/-- Model of `patricia_get_prefix_count`: length of the longest common
prefix of the two keys (0 for null/empty keys). -/
def patricia_get_prefix_count : CStr → CStr → Nat
  | a :: s, b :: t => if a = b then patricia_get_prefix_count s t + 1 else 0
  | _, _ => 0

/-- Model of `strcmp(a, b) < 0` (byte-wise lexicographic comparison of C
strings, the shorter string comparing less when it is a prefix). -/
def strLt : CStr → CStr → Bool
  | [], [] => false
  | [], _ :: _ => true
  | _ :: _, [] => false
  | a :: s, b :: t => if a < b then true else if b < a then false else strLt s t

/-- Model of `patricia_add_child_node`: insert `child` in front of the first
sibling it compares less than, else append at the tail. -/
def patricia_add_child_node (child : PNode) : List PNode → List PNode
  | [] => [child]
  | n :: ns =>
    if strLt child.key n.key then child :: n :: ns
    else n :: patricia_add_child_node child ns

/-- Model of `patricia_key_has_delimiter`: the C code tests
`key[strlen(key) - 1] == '/'`; for an empty key that read is out of bounds,
the model returns `false` there (the traversals only apply it to nonempty
fragments). -/
def patricia_key_has_delimiter (key : CStr) : Bool :=
  match key.getLast? with
  | some c => c = '/'
  | none => false

mutual

/-- Model of `patricia_lookup_internal`.  `is_root` is true exactly when
`cur_node == tree->root`. -/
def patricia_lookup_internal (is_root : Bool) (n : PNode) (key : CStr) : Bool :=
  match n with
  | .node nk cs =>
    let pl := patricia_get_prefix_count key nk
    if is_root = true ∨ pl = 0 ∨ (0 < pl ∧ pl < key.length ∧ nk.length ≤ pl) then
      match substring key pl (key.length - pl) with
      | none => false
      | some nk2 => patricia_lookup_children cs nk2
    else if pl = nk.length then
      true
    else
      false

/-- Child scan of `patricia_lookup_internal`: recurse into the first child
whose leading byte equals the leading byte of the remaining key. -/
def patricia_lookup_children (cs : List PNode) (key : CStr) : Bool :=
  match cs with
  | [] => false
  | c :: rest =>
    if keyHead c.key = keyHead key then patricia_lookup_internal false c key
    else patricia_lookup_children rest key

end

/-- Model of `patricia_lookup` for non-null arguments. -/
def patricia_lookup (t : patricia_tree_t) (key : CStr) : Bool :=
  patricia_lookup_internal true t.root key

/-- Model of `patricia_lookup` with nullable arguments.  The C function
evaluates `tree->root` before any null check, so a null tree dereferences a
null pointer: that undefined behaviour is modelled by `none`.  A null key
reaches the sanity check of `patricia_lookup_internal` and yields 0. -/
def patricia_lookup_nullable (t : Option patricia_tree_t) (key : Option CStr) :
    Option Bool :=
  match t with
  | none => none
  | some t =>
    some (match key with
          | none => false
          | some k => patricia_lookup_internal true t.root k)

mutual

/-- Model of `patricia_lookup_node_internal`: identical descent to
`patricia_lookup_internal` but returning the resolved node. -/
def patricia_lookup_node_internal (is_root : Bool) (n : PNode) (key : CStr) :
    Option PNode :=
  match n with
  | .node nk cs =>
    let pl := patricia_get_prefix_count key nk
    if is_root = true ∨ pl = 0 ∨ (0 < pl ∧ pl < key.length ∧ nk.length ≤ pl) then
      match substring key pl (key.length - pl) with
      | none => none
      | some nk2 => patricia_lookup_node_children cs nk2
    else if pl = nk.length then
      some (.node nk cs)
    else
      none

/-- Child scan of `patricia_lookup_node_internal`. -/
def patricia_lookup_node_children (cs : List PNode) (key : CStr) : Option PNode :=
  match cs with
  | [] => none
  | c :: rest =>
    if keyHead c.key = keyHead key then patricia_lookup_node_internal false c key
    else patricia_lookup_node_children rest key

end

/-- Model of `patricia_lookup_node`. -/
def patricia_lookup_node (t : patricia_tree_t) (key : CStr) : Option PNode :=
  patricia_lookup_node_internal true t.root key

mutual

/-- Model of `patricia_add_internal`.  Returns the updated node on success
(`return 0`) and `none` on failure (`return -1`). -/
def patricia_add_internal (is_root : Bool) (n : PNode) (key : CStr) :
    Option PNode :=
  match n with
  | .node nk cs =>
    let pl := patricia_get_prefix_count key nk
    if is_root = true ∨ pl = 0 ∨ (0 < pl ∧ pl < key.length ∧ nk.length ≤ pl) then
      match substring key pl (key.length - pl) with
      | none => none
      | some nk2 =>
        match patricia_add_children cs nk2 with
        | none => none
        | some (some cs') => some (.node nk cs')
        | some none =>
          some (.node nk (patricia_add_child_node (.node nk2 []) cs))
    else if pl < key.length then
      match substring key 0 pl, substring nk pl (nk.length - pl),
            substring key pl (key.length - pl) with
      | some common_key, some prev_key, some next_key =>
        some (.node common_key
          (patricia_add_child_node (.node next_key [])
            (patricia_add_child_node (.node prev_key cs) [])))
      | _, _, _ => none
    else if pl = key.length then
      match substring key 0 pl, substring nk pl (nk.length - pl) with
      | some common_key, some next_key =>
        if pl = nk.length then some (.node nk cs)
        else some (.node common_key
          (patricia_add_child_node (.node next_key cs) []))
      | _, _ => none
    else
      some (.node nk cs)

/-- Child scan of `patricia_add_internal`: `some none` means no child with a
matching leading byte was found (`insert_done == 0`), `some (some cs')` the
updated child list after a successful recursive insertion, and `none` a
failed recursive insertion. -/
def patricia_add_children (cs : List PNode) (key : CStr) :
    Option (Option (List PNode)) :=
  match cs with
  | [] => some none
  | c :: rest =>
    if keyHead c.key = keyHead key then
      match patricia_add_internal false c key with
      | none => none
      | some c' => some (some (c' :: rest))
    else
      match patricia_add_children rest key with
      | none => none
      | some none => some none
      | some (some rest') => some (some (c :: rest'))

end

/-- Model of `patricia_add` for non-null arguments: `some` of the updated
tree on success, `none` on failure. -/
def patricia_add (t : patricia_tree_t) (key : CStr) : Option patricia_tree_t :=
  (patricia_add_internal true t.root key).map patricia_tree_t.mk

mutual

/-- Model of `patricia_delete_internal`: returns the updated node together
with the status (`true` = `0`, `false` = `-1`).  A failed delete performs no
mutation. -/
def patricia_delete_internal (is_root : Bool) (n : PNode) (key : CStr) :
    PNode × Bool :=
  match n with
  | .node nk cs =>
    let pl := patricia_get_prefix_count key nk
    if is_root = true ∨ pl = 0 ∨ (0 < pl ∧ pl < key.length ∧ nk.length ≤ pl) then
      match substring key pl (key.length - pl) with
      | none => (.node nk cs, false)
      | some nk2 =>
        let r := patricia_delete_children cs nk2
        (.node nk r.1, r.2)
    else
      (.node nk cs, false)

/-- Child scan of `patricia_delete_internal`: at the first child with a
matching leading byte, either unlink it (exact fragment match, the whole
subtree is freed by `patricia_delete_keys`) or recurse into it. -/
def patricia_delete_children (cs : List PNode) (key : CStr) :
    List PNode × Bool :=
  match cs with
  | [] => ([], false)
  | c :: rest =>
    if keyHead c.key = keyHead key then
      if c.key = key then (rest, true)
      else
        let r := patricia_delete_internal false c key
        (r.1 :: rest, r.2)
    else
      let r := patricia_delete_children rest key
      (c :: r.1, r.2)

end

/-- Model of `patricia_delete` for non-null arguments. -/
def patricia_delete (t : patricia_tree_t) (key : CStr) : patricia_tree_t × Bool :=
  let r := patricia_delete_internal true t.root key
  (⟨r.1⟩, r.2)

/-- Inner `while` of `is_substring`, at one buffer suffix: count matching
leading bytes of `str2` and the number of buffer bytes consumed through the
shared index `i` (each comparison executes `str1[i++]`, so a mismatch also
consumes the mismatching byte; reaching a space consumes nothing).  The
first pattern models reaching the NUL terminator of `str1`: the scan stops
there; the C code would compare the terminator and, for the buffers the
traversals build (every token followed by a space), never reaches it. -/
def is_substring_scan : CStr → CStr → Nat × Nat
  | [], _ => (0, 0)
  | c :: s1, s2 =>
    if c = ' ' then (0, 0)
    else
      match s2 with
      | [] => (0, 1)
      | d :: s2' =>
        if c = d then
          ((is_substring_scan s1 s2').1 + 1, (is_substring_scan s1 s2').2 + 1)
        else (0, 1)

/-- Outer `for` of `is_substring`.  The inner scan advances the shared
index, so each iteration resumes one byte past whatever the scan consumed:
starting offsets inside a partially matched run are skipped.  Since the
index strictly increases, the loop executes at most `strlen(str1)`
iterations; the `fuel` argument (instantiated with `s1.length`) makes that
bound explicit. -/
def is_substring_loop : Nat → CStr → CStr → Bool
  | 0, _, _ => false
  | _ + 1, [], _ => false
  | fuel + 1, c :: rest, s2 =>
    if (is_substring_scan (c :: rest) s2).1 = s2.length then true
    else
      is_substring_loop fuel
        ((c :: rest).drop ((is_substring_scan (c :: rest) s2).2 + 1)) s2

/-- Model of `is_substring(str1, str2)`: `str2` is found when some scan
attempt completes a full leading match of `str2` before hitting a space.
Offsets are *not* all tried: after a partial match the search resumes past
the scanned bytes (e.g. `"ab"` is missed inside `"aab "`). -/
def is_substring (s1 s2 : CStr) : Bool :=
  if s1.length < s2.length then false
  else is_substring_loop s1.length s1 s2

/-- Modelled from the claim text of C10, not from the code: a token
"occurs as a leading match inside some space-delimited region" when *some*
starting offset of the buffer begins a full match of the token that stops
before any space.  Unlike the real `is_substring`, every offset is tried.
Kept for comparison against the source-derived `is_substring`. -/
def claimed_occurs_scan : CStr → CStr → Nat
  | [], _ => 0
  | c :: s1, s2 =>
    if c = ' ' then 0
    else
      match s2 with
      | [] => 0
      | d :: s2' => if c = d then claimed_occurs_scan s1 s2' + 1 else 0

/-- Modelled from the claim text of C10 (see `claimed_occurs_scan`). -/
def claimed_occurs (s1 s2 : CStr) : Bool :=
  (List.range s1.length).any
    (fun i => claimed_occurs_scan (s1.drop i) s2 = s2.length)

/-- Model of `strstr(hay, needle) - hay`: index of the first occurrence of
`needle` in `hay`, `none` when there is none (NULL result). -/
def strstr_index (hay needle : CStr) : Option Nat :=
  if needle.isPrefixOf hay then some 0
  else
    match hay with
    | [] => none
    | _ :: t => (strstr_index t needle).map (· + 1)

mutual

/-- Model of `patricia_lookup_prefix_full_internal`: depth-first traversal
appending the current node's fragment to `res`; at each leaf the token
`res ++ " "` is appended to `res_list`.  The C code restores `res` before
returning, so only the updated `res_list` is returned. -/
def patricia_lookup_prefix_full_internal (n : PNode) (res res_list : CStr) :
    CStr :=
  match n with
  | .node nk cs =>
    let res2 := res ++ nk
    let out := patricia_full_children cs res2 res_list
    if cs.isEmpty then out ++ res2 ++ [' '] else out

/-- Child loop of `patricia_lookup_prefix_full_internal`. -/
def patricia_full_children (cs : List PNode) (res res_list : CStr) : CStr :=
  match cs with
  | [] => res_list
  | c :: rest =>
    patricia_full_children rest res
      (patricia_lookup_prefix_full_internal c res res_list)

end

/-- Model of `patricia_lookup_prefix_full` for non-null arguments: resolve
the prefix node, seed `res` with the first `strstr(prefix, node->key) -
prefix` bytes of the prefix, and run the traversal on the caller's buffer.
`none` models the `-1` returns (and the out-of-model NULL `strstr` result,
which the C code would use as a wild pointer difference). -/
def patricia_lookup_prefix_full (t : patricia_tree_t) (pfx buf : CStr) :
    Option CStr :=
  match patricia_lookup_node t pfx with
  | none => none
  | some n =>
    match strstr_index pfx n.key with
    | none => none
    | some i => some (patricia_lookup_prefix_full_internal n (pfx.take i) buf)

/-- Emission step shared by the partial-variant traversal: append
`tok ++ " "` to `res_list` unless `is_substring` already finds `tok` in it
(the duplicate-suppression hack of the C code). -/
def part_append (res_list tok : CStr) : CStr :=
  if is_substring res_list tok then res_list else res_list ++ tok ++ [' ']

mutual

/-- Model of `patricia_lookup_prefix_partial_internal` (the delimiter-aware
variant).  At a child whose fragment ends in `'/'` the token
`prefix ++ res ++ child->key` minus the trailing delimiter is emitted and
the child is not descended; at a leaf `prefix ++ res` is emitted.  `res` is
restored by the C code before returning, so only `res_list` is returned. -/
def patricia_lookup_prefix_part_internal (n : PNode) (res res_list pfx : CStr) :
    CStr :=
  match n with
  | .node _ cs =>
    let out := patricia_part_children cs res res_list pfx
    if cs.isEmpty then part_append out (pfx ++ res) else out

/-- Child loop of `patricia_lookup_prefix_partial_internal`. -/
def patricia_part_children (cs : List PNode) (res res_list pfx : CStr) : CStr :=
  match cs with
  | [] => res_list
  | c :: rest =>
    let res_list2 :=
      if patricia_key_has_delimiter c.key then
        part_append res_list (pfx ++ res ++ c.key.dropLast)
      else
        patricia_lookup_prefix_part_internal c (res ++ c.key) res_list pfx
    patricia_part_children rest res res_list2 pfx

end

/-- Model of `patricia_lookup_prefix_partial` for non-null arguments. -/
def patricia_lookup_prefix_part (t : patricia_tree_t) (pfx res_list : CStr) :
    Option CStr :=
  match patricia_lookup_node t pfx with
  | none => none
  | some n => some (patricia_lookup_prefix_part_internal n [] res_list pfx)

/-- Render a token list the way the C traversals write the output buffer:
every token followed by one space. -/
def render_tokens (ts : List CStr) : CStr :=
  (ts.map (fun t => t ++ [' '])).flatten

mutual

/-- Tokens emitted by `patricia_lookup_prefix_full_internal`, as a list in
emission order (the buffer holds exactly these, each followed by a space). -/
def full_tokens (n : PNode) (res : CStr) : List CStr :=
  match n with
  | .node nk cs =>
    if cs.isEmpty then [res ++ nk] else full_tokens_children cs (res ++ nk)

/-- Tokens of `patricia_full_children`. -/
def full_tokens_children (cs : List PNode) (res : CStr) : List CStr :=
  match cs with
  | [] => []
  | c :: rest => full_tokens c res ++ full_tokens_children rest res

end

mutual

/-- Candidate tokens of the partial-variant traversal, before duplicate
suppression.  `acc` stands for `prefix ++ res`. -/
def part_cands (n : PNode) (acc : CStr) : List CStr :=
  match n with
  | .node _ cs => if cs.isEmpty then [acc] else part_cands_children cs acc

/-- Candidate tokens contributed by a child list. -/
def part_cands_children (cs : List PNode) (acc : CStr) : List CStr :=
  match cs with
  | [] => []
  | c :: rest =>
    (if patricia_key_has_delimiter c.key then [acc ++ c.key.dropLast]
     else part_cands c (acc ++ c.key)) ++ part_cands_children rest acc

end

/-- Emission with the duplicate-suppression guard, at the token-list level:
the guard inspects the rendered buffer exactly as the C code does. -/
def emit_one (out : List CStr) (tok : CStr) : List CStr :=
  if is_substring (render_tokens out) tok then out else out ++ [tok]

mutual

/-- Tokens actually appended by `patricia_lookup_prefix_partial_internal`,
as a list in emission order; `acc` stands for `prefix ++ res` and `out` for
the tokens already in the buffer. -/
def part_emit (n : PNode) (acc : CStr) (out : List CStr) : List CStr :=
  match n with
  | .node _ cs =>
    if cs.isEmpty then emit_one out acc else part_emit_children cs acc out

/-- Tokens appended while looping over a child list. -/
def part_emit_children (cs : List PNode) (acc : CStr) (out : List CStr) :
    List CStr :=
  match cs with
  | [] => out
  | c :: rest =>
    let out2 :=
      if patricia_key_has_delimiter c.key then
        emit_one out (acc ++ c.key.dropLast)
      else
        part_emit c (acc ++ c.key) out
    part_emit_children rest acc out2

end

/-- Token list produced by one `patricia_lookup_prefix_full` call into an
empty buffer (empty when the prefix does not resolve). -/
def patricia_full_token_list (t : patricia_tree_t) (pfx : CStr) : List CStr :=
  match patricia_lookup_node t pfx with
  | none => []
  | some n =>
    match strstr_index pfx n.key with
    | none => []
    | some i => full_tokens n (pfx.take i)

/-- Token list produced by one `patricia_lookup_prefix_partial` call into an
empty buffer (empty when the prefix does not resolve). -/
def patricia_part_token_list (t : patricia_tree_t) (pfx : CStr) : List CStr :=
  match patricia_lookup_node t pfx with
  | none => []
  | some n => part_emit n pfx []

/-- Candidate tokens of one `patricia_lookup_prefix_partial` call, before
the duplicate-suppression guard (empty when the prefix does not resolve). -/
def patricia_part_cand_list (t : patricia_tree_t) (pfx : CStr) : List CStr :=
  match patricia_lookup_node t pfx with
  | none => []
  | some n => part_cands n pfx

/-- Split an output buffer into its space-separated tokens. -/
def buffer_tokens (s : CStr) : List CStr :=
  (s.splitOn ' ').filter (fun t => ¬t.isEmpty)

/-- Adjacent well-ordering of a sibling list: leading bytes strictly
ascending.  Together with nonemptiness of the fragments this is equivalent
to the sibling invariants claimed by the specification. -/
def sib_ok : List PNode → Bool
  | [] => true
  | [_] => true
  | a :: b :: rest =>
    decide (keyHead a.key < keyHead b.key) && sib_ok (b :: rest)

mutual

/-- Structural well-formedness of a node: siblings have strictly ascending,
pairwise distinct leading bytes and nonempty fragments, recursively. -/
def wf : PNode → Bool
  | .node _ cs => sib_ok cs && wf_children cs

/-- Well-formedness of a child list. -/
def wf_children : List PNode → Bool
  | [] => true
  | c :: rest => (¬c.key.isEmpty) && wf c && wf_children rest

end

mutual

/-- All nodes of a tree, the root included. -/
def all_nodes (n : PNode) : List PNode :=
  match n with
  | .node k cs => .node k cs :: all_nodes_children cs

/-- All nodes of a forest. -/
def all_nodes_children : List PNode → List PNode
  | [] => []
  | c :: rest => all_nodes c ++ all_nodes_children rest

end

/-- Trees reachable from `patricia_init()` by the mutating API: successful
adds and arbitrary deletes (a failed delete leaves the tree unchanged). -/
inductive Reachable : patricia_tree_t → Prop where
  | init : Reachable ⟨.node [] []⟩
  | add (t t' : patricia_tree_t) (k : CStr) :
      Reachable t → patricia_add t k = some t' → Reachable t'
  | del (t : patricia_tree_t) (k : CStr) :
      Reachable t → Reachable (patricia_delete t k).1

/-! ## Basic lemmas about the string primitives -/

theorem pc_nil_left (b : CStr) : patricia_get_prefix_count [] b = 0 := by
  cases b <;> rfl

theorem pc_nil_right (a : CStr) : patricia_get_prefix_count a [] = 0 := by
  cases a <;> rfl

theorem pc_le_left (a b : CStr) : patricia_get_prefix_count a b ≤ a.length := by
  induction a generalizing b with
  | nil => simp [pc_nil_left]
  | cons x s ih =>
    cases b with
    | nil => simp [pc_nil_right]
    | cons y t =>
      by_cases h : x = y <;>
        simp [patricia_get_prefix_count, h, Nat.succ_le_succ, ih t]

theorem pc_le_right (a b : CStr) : patricia_get_prefix_count a b ≤ b.length := by
  induction a generalizing b with
  | nil => simp [pc_nil_left]
  | cons x s ih =>
    cases b with
    | nil => simp [pc_nil_right]
    | cons y t =>
      by_cases h : x = y <;>
        simp [patricia_get_prefix_count, h, Nat.succ_le_succ, ih t]

theorem pc_self (a : CStr) : patricia_get_prefix_count a a = a.length := by
  induction a with
  | nil => rfl
  | cons x s ih => simp [patricia_get_prefix_count, ih]

theorem pc_append (p s t : CStr) :
    patricia_get_prefix_count (p ++ s) (p ++ t) =
      p.length + patricia_get_prefix_count s t := by
  induction p with
  | nil => simp
  | cons x q ih => simp [patricia_get_prefix_count, ih]; omega

theorem pc_take_eq (a b : CStr) :
    a.take (patricia_get_prefix_count a b) =
      b.take (patricia_get_prefix_count a b) := by
  induction a generalizing b with
  | nil => simp [pc_nil_left]
  | cons x s ih =>
    cases b with
    | nil => simp [pc_nil_right]
    | cons y t =>
      by_cases h : x = y <;> simp [patricia_get_prefix_count, h, ih t]

theorem pc_head_eq (a b : CStr) (h : 0 < patricia_get_prefix_count a b) :
    keyHead a = keyHead b ∧ a ≠ [] ∧ b ≠ [] := by
  cases a with
  | nil => simp [pc_nil_left] at h
  | cons x s =>
    cases b with
    | nil => simp [pc_nil_right] at h
    | cons y t =>
      by_cases hxy : x = y
      · exact ⟨by simp [keyHead, hxy], by simp, by simp⟩
      · simp [patricia_get_prefix_count, hxy] at h

theorem pc_pos (a b : CStr) (ha : a ≠ []) (hb : b ≠ [])
    (h : keyHead a = keyHead b) : 0 < patricia_get_prefix_count a b := by
  cases a with
  | nil => exact absurd rfl ha
  | cons x s =>
    cases b with
    | nil => exact absurd rfl hb
    | cons y t =>
      simp [keyHead] at h
      simp [patricia_get_prefix_count, h]

theorem pc_drop_head_ne (a b : CStr)
    (h1 : patricia_get_prefix_count a b < a.length)
    (h2 : patricia_get_prefix_count a b < b.length) :
    keyHead (a.drop (patricia_get_prefix_count a b)) ≠
      keyHead (b.drop (patricia_get_prefix_count a b)) := by
  induction a generalizing b with
  | nil => simp at h1
  | cons x s ih =>
    cases b with
    | nil => simp at h2
    | cons y t =>
      by_cases hxy : x = y
      · simpa [patricia_get_prefix_count, hxy] using
          ih t (by simpa [patricia_get_prefix_count, hxy] using h1)
            (by simpa [patricia_get_prefix_count, hxy] using h2)
      · simpa [patricia_get_prefix_count, hxy, keyHead] using hxy

theorem pc_prefix (p s : CStr) :
    patricia_get_prefix_count (p ++ s) p = p.length := by
  have := pc_append p s []
  simpa [pc_nil_right] using this

theorem substring_nil (b l : Nat) : substring [] b l = none := by
  simp [substring]

theorem substring_drop (key : CStr) (pl : Nat) (hk : key ≠ [])
    (hpl : pl ≤ key.length) :
    substring key pl (key.length - pl) = some (key.drop pl) := by
  have h1 : ¬key.length < pl := by omega
  have h2 : ¬key.length < pl + (key.length - pl) := by omega
  simp [substring, hk, h1, h2, List.take_of_length_le, List.length_drop]

theorem substring_take (key : CStr) (pl : Nat) (hk : key ≠ [])
    (hpl : pl ≤ key.length) : substring key 0 pl = some (key.take pl) := by
  have h2 : ¬key.length < 0 + pl := by omega
  simp [substring, hk, h2]
  omega

theorem keyHead_append (a s : CStr) (ha : a ≠ []) :
    keyHead (a ++ s) = keyHead a := by
  cases a with
  | nil => exact absurd rfl ha
  | cons x t => simp [keyHead]

theorem keyHead_take (a : CStr) (m : Nat) (hm : 0 < m) :
    keyHead (a.take m) = keyHead a := by
  cases a with
  | nil => simp
  | cons x t =>
    cases m with
    | zero => omega
    | succ m' => simp [keyHead]

theorem drop_ne_nil (a : CStr) (m : Nat) (h : m < a.length) :
    a.drop m ≠ [] := by
  intro hc
  have := congrArg List.length hc
  simp at this
  omega

theorem take_ne_nil (a : CStr) (m : Nat) (hm : 0 < m) (ha : a ≠ []) :
    a.take m ≠ [] := by
  cases a with
  | nil => exact absurd rfl ha
  | cons x t =>
    cases m with
    | zero => omega
    | succ m' => simp

theorem strLt_of_head_lt (a b : CStr) (ha : a ≠ []) (hb : b ≠ [])
    (h : keyHead a < keyHead b) : strLt a b = true := by
  cases a with
  | nil => exact absurd rfl ha
  | cons x s =>
    cases b with
    | nil => exact absurd rfl hb
    | cons y t =>
      simp [keyHead] at h
      simp [strLt, h]

theorem head_lt_of_strLt (a b : CStr) (h : strLt a b = true)
    (hne : keyHead a ≠ keyHead b) (ha : a ≠ []) : keyHead a < keyHead b := by
  cases a with
  | nil => exact absurd rfl ha
  | cons x s =>
    cases b with
    | nil => simp [strLt] at h
    | cons y t =>
      simp [keyHead] at hne ⊢
      rcases lt_trichotomy x y with hlt | heq | hgt
      · exact hlt
      · exact absurd heq hne
      · simp [strLt, hgt, not_lt_of_gt hgt] at h

theorem head_lt_of_not_strLt (a b : CStr) (h : strLt a b = false)
    (hne : keyHead a ≠ keyHead b) (ha : a ≠ []) (hb : b ≠ []) :
    keyHead b < keyHead a := by
  rcases lt_trichotomy (keyHead a) (keyHead b) with hlt | heq | hgt
  · rw [strLt_of_head_lt a b ha hb hlt] at h; cases h
  · exact absurd heq hne
  · exact hgt

/-! ## Lemmas about the sibling invariant -/

theorem sib_ok_cons (a : PNode) (cs : List PNode)
    (h : sib_ok (a :: cs) = true) : sib_ok cs = true := by
  cases cs with
  | nil => rfl
  | cons b rest =>
    simp [sib_ok, Bool.and_eq_true] at h
    exact h.2

theorem sib_ok_head (a : PNode) (cs : List PNode)
    (h : sib_ok (a :: cs) = true) :
    ∀ b ∈ cs, keyHead a.key < keyHead b.key := by
  induction cs generalizing a with
  | nil => intro b hb; cases hb
  | cons b rest ih =>
    intro c hc
    have hab : keyHead a.key < keyHead b.key := by
      simp [sib_ok, Bool.and_eq_true] at h
      exact h.1
    rcases List.mem_cons.1 hc with rfl | hc'
    · exact hab
    · exact lt_trans hab (ih b (sib_ok_cons a (b :: rest) h) c hc')

theorem sib_ok_pairwise (cs : List PNode) (h : sib_ok cs = true) :
    cs.Pairwise (fun x y => keyHead x.key < keyHead y.key) := by
  induction cs with
  | nil => exact List.Pairwise.nil
  | cons a rest ih =>
    exact List.pairwise_cons.2
      ⟨sib_ok_head a rest h, ih (sib_ok_cons a rest h)⟩

theorem pairwise_sib_ok (cs : List PNode)
    (h : cs.Pairwise (fun x y => keyHead x.key < keyHead y.key)) :
    sib_ok cs = true := by
  induction cs with
  | nil => rfl
  | cons a rest ih =>
    rcases List.pairwise_cons.1 h with ⟨ha, hrest⟩
    cases rest with
    | nil => rfl
    | cons b rest' =>
      simp [sib_ok, Bool.and_eq_true]
      exact ⟨ha b (by simp), by simpa using ih hrest⟩

theorem wf_children_forall (cs : List PNode) (h : wf_children cs = true) :
    ∀ c ∈ cs, c.key ≠ [] ∧ wf c = true := by
  induction cs with
  | nil => intro c hc; cases hc
  | cons a rest ih =>
    intro c hc
    simp [wf_children, Bool.and_eq_true] at h
    rcases List.mem_cons.1 hc with rfl | hc'
    · exact ⟨by simpa using h.1.1, h.1.2⟩
    · exact ih h.2 c hc'

theorem forall_wf_children (cs : List PNode)
    (h : ∀ c ∈ cs, c.key ≠ [] ∧ wf c = true) : wf_children cs = true := by
  induction cs with
  | nil => rfl
  | cons a rest ih =>
    have ha := h a (by simp)
    simp [wf_children, Bool.and_eq_true]
    refine ⟨⟨by simpa using ha.1, ha.2⟩, ?_⟩
    have := ih (fun c hc => h c (List.mem_cons_of_mem a hc))
    simpa using this

theorem wf_node (k : CStr) (cs : List PNode) :
    wf (.node k cs) = (sib_ok cs && wf_children cs) := rfl

/-- Induction principle for `PNode` giving the hypothesis for every child. -/
theorem PNode.inductionOn {P : PNode → Prop}
    (h : ∀ k cs, (∀ c ∈ cs, P c) → P (.node k cs)) : ∀ n, P n
  | .node k cs => h k cs (fun c hc => PNode.inductionOn h c)
termination_by n => sizeOf n
decreasing_by
  simp only [PNode.node.sizeOf_spec]
  have := List.sizeOf_lt_of_mem hc
  omega

/-! ## Inversion lemmas for the operational routines -/

theorem substring_some (str : CStr) (b l : Nat) (res : CStr)
    (h : substring str b l = some res) :
    res = (str.drop b).take l ∧ str ≠ [] ∧ b + l ≤ str.length := by
  unfold substring at h
  split at h
  · cases h
  · rename_i hcond
    push_neg at hcond
    exact ⟨(Option.some.inj h).symm, hcond.1, by omega⟩

theorem delete_internal_key (b : Bool) (n : PNode) (key : CStr) :
    (patricia_delete_internal b n key).1.key = n.key := by
  cases n with
  | node nk cs =>
    simp only [patricia_delete_internal]
    split
    · split <;> rfl
    · rfl

theorem add_key_shape (b : Bool) (n : PNode) (key : CStr) (n' : PNode)
    (h : patricia_add_internal b n key = some n') :
    n'.key = n.key ∨
      ∃ pl, 0 < pl ∧ pl ≤ n.key.length ∧ n'.key = n.key.take pl := by
  cases n with
  | node nk cs =>
    simp only [patricia_add_internal] at h
    split at h
    · -- pass-through: the node key is unchanged
      split at h
      · cases h
      · split at h
        · cases h
        · cases h
          left
          rfl
        · cases h
          left
          rfl
    · split at h
      · -- diverging split: the key becomes its first `pl` bytes
        rename_i hnotb hlt
        split at h
        · rename_i ck pk xk hck hpk hxk
          cases h
          right
          have hc := substring_some key 0 _ ck hck
          refine ⟨patricia_get_prefix_count key nk, ?_, pc_le_right key nk, ?_⟩
          · rcases Nat.eq_zero_or_pos (patricia_get_prefix_count key nk) with h0 | h0
            · exact absurd (Or.inr (Or.inl h0)) hnotb
            · exact h0
          · simp only [PNode.key]
            rw [hc.1]
            simpa using pc_take_eq key nk
        · cases h
      · split at h
        · -- prefix-of-existing split
          rename_i hnotb hge heq
          split at h
          · rename_i ck xk hck hxk
            split at h
            · cases h
              left
              rfl
            · cases h
              right
              have hc := substring_some key 0 _ ck hck
              refine ⟨patricia_get_prefix_count key nk, ?_, pc_le_right key nk, ?_⟩
              · rcases Nat.eq_zero_or_pos (patricia_get_prefix_count key nk) with h0 | h0
                · exact absurd (Or.inr (Or.inl h0)) hnotb
                · exact h0
              · simp only [PNode.key]
                rw [hc.1]
                simpa using pc_take_eq key nk
          · cases h
        · cases h
          left
          rfl

theorem add_keyHead (b : Bool) (n : PNode) (key : CStr) (n' : PNode)
    (h : patricia_add_internal b n key = some n') :
    keyHead n'.key = keyHead n.key ∧ (n.key ≠ [] → n'.key ≠ []) := by
  rcases add_key_shape b n key n' h with heq | ⟨pl, hpl, hle, heq⟩
  · rw [heq]
    exact ⟨rfl, fun h => h⟩
  · rw [heq]
    constructor
    · exact keyHead_take n.key pl hpl
    · intro hne
      exact take_ne_nil n.key pl hpl hne

theorem add_children_spec (cs : List PNode) (nk : CStr) :
    (patricia_add_children cs nk = some none ∧
      ∀ a ∈ cs, keyHead a.key ≠ keyHead nk) ∨
    (∃ l1 c rest, cs = l1 ++ c :: rest ∧
      (∀ a ∈ l1, keyHead a.key ≠ keyHead nk) ∧
      keyHead c.key = keyHead nk ∧
      ((patricia_add_internal false c nk = none ∧
        patricia_add_children cs nk = none) ∨
       (∃ c', patricia_add_internal false c nk = some c' ∧
        patricia_add_children cs nk = some (some (l1 ++ c' :: rest))))) := by
  induction cs with
  | nil => exact Or.inl ⟨rfl, by simp⟩
  | cons a rest ih =>
    by_cases ha : keyHead a.key = keyHead nk
    · right
      refine ⟨[], a, rest, by simp, by simp, ha, ?_⟩
      cases hrec : patricia_add_internal false a nk with
      | none =>
        left
        exact ⟨rfl, by simp [patricia_add_children, ha, hrec]⟩
      | some c' =>
        right
        exact ⟨c', rfl, by simp [patricia_add_children, ha, hrec]⟩
    · rcases ih with ⟨hnone, hall⟩ | ⟨l1, c, rest', heq, hl1, hc, hcase⟩
      · left
        constructor
        · simp [patricia_add_children, ha, hnone]
        · intro x hx
          rcases List.mem_cons.1 hx with rfl | hx'
          · exact ha
          · exact hall x hx'
      · right
        refine ⟨a :: l1, c, rest', by simp [heq], ?_, hc, ?_⟩
        · intro x hx
          rcases List.mem_cons.1 hx with rfl | hx'
          · exact ha
          · exact hl1 x hx'
        · rcases hcase with ⟨hfail, hres⟩ | ⟨c', hok, hres⟩
          · left
            exact ⟨hfail, by simp [patricia_add_children, ha, hres]⟩
          · right
            refine ⟨c', hok, ?_⟩
            simp [patricia_add_children, ha, hres]

theorem delete_children_spec (cs : List PNode) (nk : CStr) :
    (patricia_delete_children cs nk = (cs, false) ∧
      ∀ a ∈ cs, keyHead a.key ≠ keyHead nk) ∨
    (∃ l1 c rest, cs = l1 ++ c :: rest ∧
      (∀ a ∈ l1, keyHead a.key ≠ keyHead nk) ∧
      keyHead c.key = keyHead nk ∧
      ((c.key = nk ∧ patricia_delete_children cs nk = (l1 ++ rest, true)) ∨
       (c.key ≠ nk ∧ patricia_delete_children cs nk =
         (l1 ++ (patricia_delete_internal false c nk).1 :: rest,
          (patricia_delete_internal false c nk).2)))) := by
  induction cs with
  | nil => exact Or.inl ⟨rfl, by simp⟩
  | cons a rest ih =>
    by_cases ha : keyHead a.key = keyHead nk
    · right
      refine ⟨[], a, rest, by simp, by simp, ha, ?_⟩
      by_cases hk : a.key = nk
      · left
        exact ⟨hk, by simp [patricia_delete_children, ha, hk]⟩
      · right
        exact ⟨hk, by simp [patricia_delete_children, ha, hk]⟩
    · rcases ih with ⟨hnone, hall⟩ | ⟨l1, c, rest', heq, hl1, hc, hcase⟩
      · left
        constructor
        · simp [patricia_delete_children, ha, hnone]
        · intro x hx
          rcases List.mem_cons.1 hx with rfl | hx'
          · exact ha
          · exact hall x hx'
      · right
        refine ⟨a :: l1, c, rest', by simp [heq], ?_, hc, ?_⟩
        · intro x hx
          rcases List.mem_cons.1 hx with rfl | hx'
          · exact ha
          · exact hl1 x hx'
        · rcases hcase with ⟨hk, hres⟩ | ⟨hk, hres⟩
          · left
            exact ⟨hk, by simp [patricia_delete_children, ha, hres]⟩
          · right
            exact ⟨hk, by simp [patricia_delete_children, ha, hres]⟩

theorem lookup_children_no_match (l1 l2 : List PNode) (nk : CStr)
    (h : ∀ a ∈ l1, keyHead a.key ≠ keyHead nk) :
    patricia_lookup_children (l1 ++ l2) nk = patricia_lookup_children l2 nk := by
  induction l1 with
  | nil => rfl
  | cons a rest ih =>
    have ha := h a (by simp)
    simp only [List.cons_append, patricia_lookup_children, ha, if_false]
    exact ih (fun x hx => h x (List.mem_cons_of_mem a hx))

theorem lookup_children_none (cs : List PNode) (nk : CStr)
    (h : ∀ a ∈ cs, keyHead a.key ≠ keyHead nk) :
    patricia_lookup_children cs nk = false := by
  have := lookup_children_no_match cs [] nk h
  simpa using this

theorem lookup_children_match (c : PNode) (rest : List PNode) (nk : CStr)
    (h : keyHead c.key = keyHead nk) :
    patricia_lookup_children (c :: rest) nk =
      patricia_lookup_internal false c nk := by
  simp [patricia_lookup_children, h]

/-- Looking up exactly the fragment stored in a non-root node succeeds. -/
theorem lookup_self (key : CStr) (cs : List PNode) (hk : key ≠ []) :
    patricia_lookup_internal false (.node key cs) key = true := by
  have h0 : key.length ≠ 0 := by
    intro h
    exact hk (List.eq_nil_of_length_eq_zero h)
  simp [patricia_lookup_internal, pc_self, h0]

theorem add_child_mem (x : PNode) (cs : List PNode) (c : PNode)
    (h : c ∈ patricia_add_child_node x cs) : c = x ∨ c ∈ cs := by
  induction cs with
  | nil =>
    simp [patricia_add_child_node] at h
    exact Or.inl h
  | cons a rest ih =>
    by_cases hlt : strLt x.key a.key = true
    · simp [patricia_add_child_node, hlt] at h
      rcases h with rfl | rfl | h'
      · exact Or.inl rfl
      · exact Or.inr (by simp)
      · exact Or.inr (by simp [h'])
    · simp [patricia_add_child_node, hlt] at h
      rcases h with rfl | h'
      · exact Or.inr (by simp)
      · rcases ih h' with rfl | h''
        · exact Or.inl rfl
        · exact Or.inr (by simp [h''])

theorem add_child_pairwise (x : PNode) (cs : List PNode)
    (hps : cs.Pairwise (fun a b => keyHead a.key < keyHead b.key))
    (hne : ∀ c ∈ cs, keyHead c.key ≠ keyHead x.key)
    (hx : x.key ≠ []) (hcs : ∀ c ∈ cs, c.key ≠ []) :
    (patricia_add_child_node x cs).Pairwise
      (fun a b => keyHead a.key < keyHead b.key) := by
  induction cs with
  | nil => simp [patricia_add_child_node]
  | cons a rest ih =>
    rcases List.pairwise_cons.1 hps with ⟨hafirst, hrest⟩
    have hax : keyHead a.key ≠ keyHead x.key := hne a (by simp)
    have ha : a.key ≠ [] := hcs a (by simp)
    by_cases hlt : strLt x.key a.key = true
    · have hxa : keyHead x.key < keyHead a.key :=
        head_lt_of_strLt x.key a.key hlt (fun e => hax e.symm) hx
      have hstep : patricia_add_child_node x (a :: rest) = x :: a :: rest := by
        simp [patricia_add_child_node, hlt]
      rw [hstep]
      refine List.pairwise_cons.2 ⟨?_, hps⟩
      intro b hb
      rcases List.mem_cons.1 hb with rfl | hb'
      · exact hxa
      · exact lt_trans hxa (hafirst b hb')
    · have hax' : keyHead a.key < keyHead x.key :=
        head_lt_of_not_strLt x.key a.key (by simpa using hlt)
          (fun e => hax e.symm) hx ha
      have hstep : patricia_add_child_node x (a :: rest) =
          a :: patricia_add_child_node x rest := by
        simp [patricia_add_child_node, hlt]
      rw [hstep]
      refine List.pairwise_cons.2
        ⟨?_, ih hrest (fun c hc => hne c (by simp [hc]))
          (fun c hc => hcs c (by simp [hc]))⟩
      intro b hb
      rcases add_child_mem x rest b hb with rfl | hb'
      · exact hax'
      · exact hafirst b hb'

theorem add_child_wf_children (x : PNode) (cs : List PNode)
    (hcs : wf_children cs = true) (hx : wf x = true) (hxk : x.key ≠ []) :
    wf_children (patricia_add_child_node x cs) = true := by
  apply forall_wf_children
  intro c hc
  rcases add_child_mem x cs c hc with rfl | hc'
  · exact ⟨hxk, hx⟩
  · exact wf_children_forall cs hcs c hc'

theorem lookup_children_add_child (x : PNode) (cs : List PNode) (nk : CStr)
    (hne : ∀ c ∈ cs, keyHead c.key ≠ keyHead nk)
    (hx : keyHead x.key = keyHead nk) :
    patricia_lookup_children (patricia_add_child_node x cs) nk =
      patricia_lookup_internal false x nk := by
  induction cs with
  | nil => simp [patricia_add_child_node, patricia_lookup_children, hx]
  | cons a rest ih =>
    have ha := hne a (by simp)
    by_cases hlt : strLt x.key a.key = true
    · have hstep : patricia_add_child_node x (a :: rest) = x :: a :: rest := by
        simp [patricia_add_child_node, hlt]
      rw [hstep, lookup_children_match x (a :: rest) nk hx]
    · have hstep : patricia_add_child_node x (a :: rest) =
          a :: patricia_add_child_node x rest := by
        simp [patricia_add_child_node, hlt]
      rw [hstep]
      simp only [patricia_lookup_children, ha, if_false]
      exact ih (fun c hc => hne c (by simp [hc]))

/-- Adding the empty key always fails: `substring` refuses empty strings. -/
theorem add_nil (b : Bool) (n : PNode) : patricia_add_internal b n [] = none := by
  cases n with
  | node nk cs => simp [patricia_add_internal, pc_nil_left, substring_nil]

/-- Core of the amended C9: with allocation never failing, adding any
nonempty key to a tree whose root fragment is empty succeeds. -/
theorem add_isSome (n : PNode) : ∀ (b : Bool) (key : CStr), key ≠ [] →
    (b = true → n.key = []) → (patricia_add_internal b n key).isSome := by
  induction n using PNode.inductionOn with
  | _ k cs ih =>
    intro b key hkey hb
    have hklen : 0 < key.length := List.length_pos.2 hkey
    have hple : patricia_get_prefix_count key k ≤ key.length := pc_le_left key k
    have hpk : patricia_get_prefix_count key k ≤ k.length := pc_le_right key k
    by_cases hcond : b = true ∨ patricia_get_prefix_count key k = 0 ∨
        (0 < patricia_get_prefix_count key k ∧
         patricia_get_prefix_count key k < key.length ∧
         k.length ≤ patricia_get_prefix_count key k)
    · have hpllt : patricia_get_prefix_count key k < key.length := by
        rcases hcond with hb' | h0 | ⟨_, hlt, _⟩
        · have hk0 : k = [] := hb hb'
          subst hk0
          simpa [pc_nil_right] using hklen
        · omega
        · exact hlt
      have hsub : substring key (patricia_get_prefix_count key k)
          (key.length - patricia_get_prefix_count key k) =
          some (key.drop (patricia_get_prefix_count key k)) :=
        substring_drop key _ hkey hple
      have hnk2 : key.drop (patricia_get_prefix_count key k) ≠ [] :=
        drop_ne_nil key _ hpllt
      rcases add_children_spec cs (key.drop (patricia_get_prefix_count key k))
          with ⟨hnone, _⟩ | ⟨l1, c, rest, heq, _, _, hcase⟩
      · simp [patricia_add_internal, hcond, hsub, hnone]
      · rcases hcase with ⟨hfail, _⟩ | ⟨c', _, hres⟩
        · have hmem : c ∈ cs := by
            rw [heq]
            simp
          have := ih c hmem false
            (key.drop (patricia_get_prefix_count key k)) hnk2 (by simp)
          rw [hfail] at this
          simp at this
        · simp [patricia_add_internal, hcond, hsub, hres]
    · have hpl0 : patricia_get_prefix_count key k ≠ 0 := by
        intro h
        exact hcond (Or.inr (Or.inl h))
      have hkne : k ≠ [] := by
        intro h
        subst h
        exact hpl0 (pc_nil_right key)
      by_cases hlt : patricia_get_prefix_count key k < key.length
      · have hsub1 := substring_take key _ hkey hple
        have hsub2 := substring_drop k (patricia_get_prefix_count key k) hkne hpk
        have hsub3 := substring_drop key (patricia_get_prefix_count key k) hkey hple
        simp only [patricia_add_internal]
        rw [if_neg hcond, if_pos hlt, hsub1, hsub2, hsub3]
        simp
      · have hpleq : patricia_get_prefix_count key k = key.length := by omega
        have hsub1 := substring_take key _ hkey hple
        have hsub2 := substring_drop k (patricia_get_prefix_count key k) hkne hpk
        simp only [patricia_add_internal]
        rw [if_neg hcond, if_neg hlt, if_pos hpleq, hsub1, hsub2]
        by_cases he : patricia_get_prefix_count key k = k.length <;> simp [he]

theorem pc_take_self (key : CStr) : ∀ pl : Nat, pl ≤ key.length →
    patricia_get_prefix_count key (key.take pl) = pl := by
  induction key with
  | nil =>
    intro pl h
    simp at h
    simp [h, pc_nil_right]
  | cons x t ih =>
    intro pl h
    cases pl with
    | zero => simp [pc_nil_right]
    | succ m =>
      simp only [List.take_succ_cons, patricia_get_prefix_count]
      rw [ih m (by simpa using h)]
      simp

/-- Core of C1: a successful insertion makes the inserted key found by the
lookup descent. -/
theorem lookup_after_add (n : PNode) : ∀ (b : Bool) (key : CStr) (n' : PNode),
    key ≠ [] → (b = true → n.key = []) →
    patricia_add_internal b n key = some n' →
    patricia_lookup_internal b n' key = true := by
  induction n using PNode.inductionOn with
  | _ k cs ih =>
    intro b key n' hkey hb h
    have hklen : 0 < key.length := List.length_pos.2 hkey
    have hple : patricia_get_prefix_count key k ≤ key.length := pc_le_left key k
    have hpk : patricia_get_prefix_count key k ≤ k.length := pc_le_right key k
    by_cases hcond : b = true ∨ patricia_get_prefix_count key k = 0 ∨
        (0 < patricia_get_prefix_count key k ∧
         patricia_get_prefix_count key k < key.length ∧
         k.length ≤ patricia_get_prefix_count key k)
    · -- pass-through case
      have hpllt : patricia_get_prefix_count key k < key.length := by
        rcases hcond with hb' | h0 | ⟨_, hlt, _⟩
        · have hk0 : k = [] := hb hb'
          subst hk0
          simpa [pc_nil_right] using hklen
        · omega
        · exact hlt
      have hsub : substring key (patricia_get_prefix_count key k)
          (key.length - patricia_get_prefix_count key k) =
          some (key.drop (patricia_get_prefix_count key k)) :=
        substring_drop key _ hkey hple
      have hnk2 : key.drop (patricia_get_prefix_count key k) ≠ [] :=
        drop_ne_nil key _ hpllt
      simp only [patricia_add_internal, hsub] at h
      rw [if_pos hcond] at h
      rcases add_children_spec cs (key.drop (patricia_get_prefix_count key k))
          with ⟨hnone, hall⟩ | ⟨l1, c, rest, heq, hl1, hc, hcase⟩
      · rw [hnone] at h
        have hn' := Option.some.inj h
        subst hn'
        simp only [patricia_lookup_internal, hsub]
        rw [if_pos hcond]
        rw [lookup_children_add_child
          (PNode.node (key.drop (patricia_get_prefix_count key k)) []) cs
          (key.drop (patricia_get_prefix_count key k)) hall rfl]
        exact lookup_self _ [] hnk2
      · rcases hcase with ⟨hfail, hres⟩ | ⟨c', hok, hres⟩
        · rw [hres] at h
          cases h
        · rw [hres] at h
          have hn' := Option.some.inj h
          subst hn'
          have hmem : c ∈ cs := by
            rw [heq]
            simp
          have hih : patricia_lookup_internal false c'
              (key.drop (patricia_get_prefix_count key k)) = true :=
            ih c hmem false _ c' hnk2 (by simp) hok
          simp only [patricia_lookup_internal, hsub]
          rw [if_pos hcond]
          rw [lookup_children_no_match l1 (c' :: rest) _ hl1]
          have hc' : keyHead c'.key =
              keyHead (key.drop (patricia_get_prefix_count key k)) := by
            rw [(add_keyHead false c _ c' hok).1, hc]
          rw [lookup_children_match c' rest _ hc']
          exact hih
    · -- split and exact-match cases
      have hb' : b = false := by
        cases b with
        | false => rfl
        | true => exact absurd (Or.inl rfl) hcond
      subst hb'
      have hpl0 : patricia_get_prefix_count key k ≠ 0 := by
        intro h0
        exact hcond (Or.inr (Or.inl h0))
      have hkne : k ≠ [] := by
        intro h0
        subst h0
        exact hpl0 (pc_nil_right key)
      by_cases hlt : patricia_get_prefix_count key k < key.length
      · -- diverging split
        have hklt : patricia_get_prefix_count key k < k.length := by
          by_contra hge
          exact hcond (Or.inr (Or.inr
            ⟨Nat.pos_of_ne_zero hpl0, hlt, not_lt.1 hge⟩))
        have hsub1 := substring_take key _ hkey hple
        have hsub2 := substring_drop k (patricia_get_prefix_count key k) hkne hpk
        have hsub3 := substring_drop key (patricia_get_prefix_count key k) hkey hple
        simp only [patricia_add_internal] at h
        rw [if_neg hcond, if_pos hlt, hsub1, hsub2, hsub3] at h
        have hn' := Option.some.inj h
        subst hn'
        have hpc' : patricia_get_prefix_count key
            (key.take (patricia_get_prefix_count key k)) =
            patricia_get_prefix_count key k := pc_take_self key _ hple
        have hcond' : (false = true ∨ patricia_get_prefix_count key k = 0 ∨
            (0 < patricia_get_prefix_count key k ∧
             patricia_get_prefix_count key k < key.length ∧
             (key.take (patricia_get_prefix_count key k)).length ≤
              patricia_get_prefix_count key k)) := by
          right
          right
          refine ⟨Nat.pos_of_ne_zero hpl0, hlt, ?_⟩
          simp [hple]
        simp only [patricia_lookup_internal, hpc', hsub3]
        rw [if_pos hcond']
        have hprev : patricia_add_child_node
            (PNode.node (k.drop (patricia_get_prefix_count key k)) cs) [] =
            [PNode.node (k.drop (patricia_get_prefix_count key k)) cs] := rfl
        rw [hprev]
        have hhne : keyHead (key.drop (patricia_get_prefix_count key k)) ≠
            keyHead (k.drop (patricia_get_prefix_count key k)) :=
          pc_drop_head_ne key k hlt hklt
        rw [lookup_children_add_child
          (PNode.node (key.drop (patricia_get_prefix_count key k)) [])
          [PNode.node (k.drop (patricia_get_prefix_count key k)) cs]
          (key.drop (patricia_get_prefix_count key k)) ?_ rfl]
        · exact lookup_self _ [] (drop_ne_nil key _ hlt)
        · intro x hx
          rcases List.mem_singleton.1 hx with rfl
          simpa [PNode.key] using fun e => hhne e.symm
      · -- the inserted key is a prefix of (or equal to) the node fragment
        have hpleq : patricia_get_prefix_count key k = key.length := by omega
        have hsub1 := substring_take key _ hkey hple
        have hsub2 := substring_drop k (patricia_get_prefix_count key k) hkne hpk
        simp only [patricia_add_internal] at h
        rw [if_neg hcond, if_neg hlt, if_pos hpleq] at h
        simp only [hsub1, hsub2] at h
        by_cases hke : patricia_get_prefix_count key k = k.length
        · rw [if_pos hke] at h
          have hn' := Option.some.inj h
          subst hn'
          have hkeyk : key = k := by
            have h1 : key.take (patricia_get_prefix_count key k) =
                k.take (patricia_get_prefix_count key k) := pc_take_eq key k
            rw [hpleq] at h1
            have hlen : key.length = k.length := by omega
            rw [List.take_length] at h1
            rw [hlen, List.take_length] at h1
            exact h1
          subst hkeyk
          exact lookup_self key cs hkey
        · rw [if_neg hke] at h
          have hn' := Option.some.inj h
          subst hn'
          have htake : key.take (patricia_get_prefix_count key k) = key := by
            rw [hpleq]
            exact List.take_length key
          rw [htake]
          exact lookup_self key _ hkey

theorem add_children_of_lookup (l : List PNode) (nk2 : CStr)
    (ih : ∀ c ∈ l, patricia_lookup_internal false c nk2 = true →
          patricia_add_internal false c nk2 = some c)
    (hl : patricia_lookup_children l nk2 = true) :
    patricia_add_children l nk2 = some (some l) := by
  induction l with
  | nil => simp [patricia_lookup_children] at hl
  | cons a rest ihl =>
    by_cases ha : keyHead a.key = keyHead nk2
    · rw [lookup_children_match a rest nk2 ha] at hl
      have := ih a (by simp) hl
      simp [patricia_add_children, ha, this]
    · simp only [patricia_lookup_children, ha, if_false] at hl
      have := ihl (fun c hc => ih c (by simp [hc])) hl
      simp [patricia_add_children, ha, this]

/-- Core of C7: inserting a key the lookup already finds performs no
mutation and reports success. -/
theorem add_of_lookup (n : PNode) : ∀ (b : Bool) (key : CStr),
    patricia_lookup_internal b n key = true →
    patricia_add_internal b n key = some n := by
  induction n using PNode.inductionOn with
  | _ k cs ih =>
    intro b key hl
    by_cases hcond : b = true ∨ patricia_get_prefix_count key k = 0 ∨
        (0 < patricia_get_prefix_count key k ∧
         patricia_get_prefix_count key k < key.length ∧
         k.length ≤ patricia_get_prefix_count key k)
    · simp only [patricia_lookup_internal] at hl
      rw [if_pos hcond] at hl
      cases hsub : substring key (patricia_get_prefix_count key k)
          (key.length - patricia_get_prefix_count key k) with
      | none =>
        simp only [hsub] at hl
        cases hl
      | some nk2 =>
        simp only [hsub] at hl
        have hadd := add_children_of_lookup cs nk2
          (fun c hc => ih c hc false nk2) hl
        simp only [patricia_add_internal, hsub]
        rw [if_pos hcond, hadd]
    · simp only [patricia_lookup_internal] at hl
      rw [if_neg hcond] at hl
      by_cases hke : patricia_get_prefix_count key k = k.length
      · have hpl0 : patricia_get_prefix_count key k ≠ 0 := by
          intro h0
          exact hcond (Or.inr (Or.inl h0))
        have hlt' : ¬patricia_get_prefix_count key k < key.length := by
          intro hlt
          exact hcond (Or.inr (Or.inr
            ⟨Nat.pos_of_ne_zero hpl0, hlt, le_of_eq hke.symm⟩))
        have hple : patricia_get_prefix_count key k ≤ key.length :=
          pc_le_left key k
        have hpleq : patricia_get_prefix_count key k = key.length := by omega
        have hkey : key ≠ [] := by
          intro h0
          subst h0
          exact hpl0 (pc_nil_left k)
        have hkne : k ≠ [] := by
          intro h0
          subst h0
          exact hpl0 (pc_nil_right key)
        have hsub1 := substring_take key _ hkey hple
        have hsub2 := substring_drop k (patricia_get_prefix_count key k) hkne
          (pc_le_right key k)
        simp only [patricia_add_internal]
        rw [if_neg hcond, if_neg hlt', if_pos hpleq]
        simp only [hsub1, hsub2]
        rw [if_pos hke]
      · rw [if_neg hke] at hl
        cases hl

/-! ## Claim C1 -/

/-- C1: for every tree (root fragment empty, as the data model guarantees)
and every non-empty key, if `patricia_add` returns success then
`patricia_lookup` finds the key immediately afterwards. -/
theorem claim_C1_add_then_lookup (t t' : patricia_tree_t) (key : CStr)
    (hkey : key ≠ []) (hroot : t.root.key = [])
    (hadd : patricia_add t key = some t') :
    patricia_lookup t' key = true := by
  rcases Option.map_eq_some'.1 hadd with ⟨n', hn', heq⟩
  have := lookup_after_add t.root true key n' hkey (fun _ => hroot) hn'
  rw [← heq]
  exact this

theorem claim_C1_witness :
    (['a'] : CStr) ≠ [] ∧
    (patricia_tree_t.mk (.node [] [])).root.key = [] ∧
    patricia_add ⟨.node [] []⟩ ['a'] = some ⟨.node [] [.node ['a'] []]⟩ ∧
    patricia_lookup ⟨.node [] [.node ['a'] []]⟩ ['a'] = true :=
  ⟨by decide, rfl, rfl,
    claim_C1_add_then_lookup ⟨.node [] []⟩ ⟨.node [] [.node ['a'] []]⟩ ['a']
      (by decide) rfl rfl⟩

/-! ## Claim C7 -/

/-- C7: adding a key that the lookup already finds (the exact-match case)
reports success and performs no mutation, so the tree is unchanged, the
lookup still finds the key, and every enumeration output is exactly what it
was before the redundant insertion (hence no duplicate token appears for
the re-added key). -/
theorem claim_C7_add_idempotent (t : patricia_tree_t) (key : CStr)
    (hl : patricia_lookup t key = true) :
    patricia_add t key = some t ∧ patricia_lookup t key = true ∧
    ∀ t' : patricia_tree_t, patricia_add t key = some t' →
      ∀ pfx : CStr,
        patricia_full_token_list t' pfx = patricia_full_token_list t pfx := by
  have hadd : patricia_add t key = some t := by
    have := add_of_lookup t.root true key hl
    simp [patricia_add, this]
  refine ⟨hadd, hl, ?_⟩
  intro t' ht' pfx
  rw [hadd] at ht'
  rw [Option.some.inj ht']

theorem claim_C7_witness :
    patricia_lookup ⟨.node [] [.node ['a'] []]⟩ ['a'] = true ∧
    patricia_add ⟨.node [] [.node ['a'] []]⟩ ['a'] =
      some ⟨.node [] [.node ['a'] []]⟩ :=
  ⟨rfl, (claim_C7_add_idempotent ⟨.node [] [.node ['a'] []]⟩ ['a'] rfl).1⟩

/-! ## Claim C9 -/

/-- C9 counterexample: in the model no allocation ever fails, yet
`patricia_add` on a non-null tree and the non-null empty key reports
failure, because `substring` rejects empty strings at its sanity check.
So failure is not reported only on allocation failure. -/
theorem claim_C9_counterexample :
    patricia_add ⟨.node [] []⟩ [] = none := rfl

/-- C9 amended: for every non-null tree (with empty root fragment) and
every non-null *non-empty* key, `patricia_add` reports failure only when an
allocation fails; in the model allocations always succeed and the addition
always succeeds. -/
theorem claim_C9_amended_add_total (t : patricia_tree_t) (key : CStr)
    (hroot : t.root.key = []) (hkey : key ≠ []) :
    ∃ t', patricia_add t key = some t' := by
  have h := add_isSome t.root true key hkey (fun _ => hroot)
  rcases Option.isSome_iff_exists.1 h with ⟨n', hn'⟩
  exact ⟨⟨n'⟩, by simp [patricia_add, hn']⟩

theorem claim_C9_witness :
    (patricia_tree_t.mk (.node [] [])).root.key = [] ∧
    (['a'] : CStr) ≠ [] ∧
    ∃ t', patricia_add ⟨.node [] []⟩ ['a'] = some t' :=
  ⟨rfl, by decide,
    claim_C9_amended_add_total ⟨.node [] []⟩ ['a'] rfl (by decide)⟩

/-! ## Preservation of the sibling invariants -/

theorem pairwise_head_replace (l1 rest : List PNode) (c c' : PNode)
    (h : (l1 ++ c :: rest).Pairwise (fun a b => keyHead a.key < keyHead b.key))
    (hk : keyHead c'.key = keyHead c.key) :
    (l1 ++ c' :: rest).Pairwise (fun a b => keyHead a.key < keyHead b.key) := by
  rw [List.pairwise_append] at h ⊢
  obtain ⟨h1, h2, h3⟩ := h
  rw [List.pairwise_cons] at h2 ⊢
  refine ⟨h1, ⟨fun b hb => hk ▸ h2.1 b hb, h2.2⟩, ?_⟩
  intro a ha b hb
  rcases List.mem_cons.1 hb with rfl | hb'
  · rw [hk]
    exact h3 a ha c (by simp)
  · exact h3 a ha b (by simp [hb'])

theorem wf_leaf (k : CStr) : wf (.node k []) = true := rfl

/-- Successful insertion preserves the structural invariants. -/
theorem wf_add (n : PNode) : ∀ (b : Bool) (key : CStr) (n' : PNode),
    wf n = true → (b = true → n.key = []) →
    patricia_add_internal b n key = some n' → wf n' = true := by
  induction n using PNode.inductionOn with
  | _ k cs ih =>
    intro b key n' hwf hb h
    have hsib : sib_ok cs = true := by
      have := hwf
      rw [wf_node, Bool.and_eq_true] at this
      exact this.1
    have hch : wf_children cs = true := by
      have := hwf
      rw [wf_node, Bool.and_eq_true] at this
      exact this.2
    have hkeys := wf_children_forall cs hch
    by_cases hkey : key = []
    · subst hkey
      rw [add_nil] at h
      cases h
    have hklen : 0 < key.length := List.length_pos.2 hkey
    have hple : patricia_get_prefix_count key k ≤ key.length := pc_le_left key k
    have hpk : patricia_get_prefix_count key k ≤ k.length := pc_le_right key k
    by_cases hcond : b = true ∨ patricia_get_prefix_count key k = 0 ∨
        (0 < patricia_get_prefix_count key k ∧
         patricia_get_prefix_count key k < key.length ∧
         k.length ≤ patricia_get_prefix_count key k)
    · -- pass-through case
      have hpllt : patricia_get_prefix_count key k < key.length := by
        rcases hcond with hb' | h0 | ⟨_, hlt, _⟩
        · have hk0 : k = [] := hb hb'
          subst hk0
          simpa [pc_nil_right] using hklen
        · omega
        · exact hlt
      have hsub : substring key (patricia_get_prefix_count key k)
          (key.length - patricia_get_prefix_count key k) =
          some (key.drop (patricia_get_prefix_count key k)) :=
        substring_drop key _ hkey hple
      have hnk2 : key.drop (patricia_get_prefix_count key k) ≠ [] :=
        drop_ne_nil key _ hpllt
      simp only [patricia_add_internal, hsub] at h
      rw [if_pos hcond] at h
      rcases add_children_spec cs (key.drop (patricia_get_prefix_count key k))
          with ⟨hnone, hall⟩ | ⟨l1, c, rest, heq, hl1, hc, hcase⟩
      · rw [hnone] at h
        have hn' := Option.some.inj h
        subst hn'
        rw [wf_node, Bool.and_eq_true]
        constructor
        · apply pairwise_sib_ok
          exact add_child_pairwise _ cs (sib_ok_pairwise cs hsib)
            (fun c hc => hall c hc) hnk2 (fun c hc => (hkeys c hc).1)
        · exact add_child_wf_children _ cs hch (wf_leaf _) hnk2
      · rcases hcase with ⟨hfail, hres⟩ | ⟨c', hok, hres⟩
        · rw [hres] at h
          cases h
        · rw [hres] at h
          have hn' := Option.some.inj h
          subst hn'
          have hmem : c ∈ cs := by
            rw [heq]
            simp
          have hcw := hkeys c hmem
          have hc'wf : wf c' = true :=
            ih c hmem false _ c' hcw.2 (by simp) hok
          have hc'key := add_keyHead false c _ c' hok
          rw [wf_node, Bool.and_eq_true]
          constructor
          · apply pairwise_sib_ok
            apply pairwise_head_replace l1 rest c c' _ hc'key.1
            rw [← heq]
            exact sib_ok_pairwise cs hsib
          · apply forall_wf_children
            intro x hx
            rcases List.mem_append.1 hx with hx' | hx'
            · exact hkeys x (by rw [heq]; exact List.mem_append_left _ hx')
            · rcases List.mem_cons.1 hx' with rfl | hx''
              · exact ⟨hc'key.2 hcw.1, hc'wf⟩
              · exact hkeys x
                  (by rw [heq]; exact List.mem_append_right _ (by simp [hx'']))
    · -- split and exact-match cases
      have hb' : b = false := by
        cases b with
        | false => rfl
        | true => exact absurd (Or.inl rfl) hcond
      subst hb'
      have hpl0 : patricia_get_prefix_count key k ≠ 0 := by
        intro h0
        exact hcond (Or.inr (Or.inl h0))
      have hkne : k ≠ [] := by
        intro h0
        subst h0
        exact hpl0 (pc_nil_right key)
      by_cases hlt : patricia_get_prefix_count key k < key.length
      · -- diverging split
        have hklt : patricia_get_prefix_count key k < k.length := by
          by_contra hge
          exact hcond (Or.inr (Or.inr
            ⟨Nat.pos_of_ne_zero hpl0, hlt, not_lt.1 hge⟩))
        have hsub1 := substring_take key _ hkey hple
        have hsub2 := substring_drop k (patricia_get_prefix_count key k) hkne hpk
        have hsub3 := substring_drop key (patricia_get_prefix_count key k) hkey hple
        simp only [patricia_add_internal] at h
        rw [if_neg hcond, if_pos hlt] at h
        simp only [hsub1, hsub2, hsub3] at h
        have hn' := Option.some.inj h
        subst hn'
        have hxk : key.drop (patricia_get_prefix_count key k) ≠ [] :=
          drop_ne_nil key _ hlt
        have hpkk : k.drop (patricia_get_prefix_count key k) ≠ [] :=
          drop_ne_nil k _ hklt
        have hhne : keyHead (key.drop (patricia_get_prefix_count key k)) ≠
            keyHead (k.drop (patricia_get_prefix_count key k)) :=
          pc_drop_head_ne key k hlt hklt
        rw [wf_node, Bool.and_eq_true]
        constructor
        · apply pairwise_sib_ok
          apply add_child_pairwise
          · exact List.pairwise_singleton _ _
          · intro x hx
            rcases List.mem_singleton.1 hx with rfl
            simpa [PNode.key] using fun e => hhne e.symm
          · exact hxk
          · intro x hx
            rcases List.mem_singleton.1 hx with rfl
            simpa [PNode.key] using hpkk
        · apply add_child_wf_children
          · apply forall_wf_children
            intro x hx
            rcases List.mem_singleton.1 hx with rfl
            refine ⟨by simpa [PNode.key] using hpkk, ?_⟩
            rw [wf_node, Bool.and_eq_true]
            exact ⟨hsib, hch⟩
          · exact wf_leaf _
          · exact hxk
      · -- the inserted key equals or is a prefix of the node fragment
        have hpleq : patricia_get_prefix_count key k = key.length := by omega
        have hsub1 := substring_take key _ hkey hple
        have hsub2 := substring_drop k (patricia_get_prefix_count key k) hkne hpk
        simp only [patricia_add_internal] at h
        rw [if_neg hcond, if_neg hlt, if_pos hpleq] at h
        simp only [hsub1, hsub2] at h
        by_cases hke : patricia_get_prefix_count key k = k.length
        · rw [if_pos hke] at h
          have hn' := Option.some.inj h
          subst hn'
          exact hwf
        · rw [if_neg hke] at h
          have hn' := Option.some.inj h
          subst hn'
          have hklt : patricia_get_prefix_count key k < k.length := by
            omega
          have hxk : k.drop (patricia_get_prefix_count key k) ≠ [] :=
            drop_ne_nil k _ hklt
          rw [wf_node, Bool.and_eq_true]
          constructor
          · rfl
          · apply forall_wf_children
            intro x hx
            rcases List.mem_singleton.1 hx with rfl
            refine ⟨by simpa [PNode.key] using hxk, ?_⟩
            rw [wf_node, Bool.and_eq_true]
            exact ⟨hsib, hch⟩

/-- Deletion preserves the structural invariants. -/
theorem wf_delete (n : PNode) : ∀ (b : Bool) (key : CStr),
    wf n = true → wf (patricia_delete_internal b n key).1 = true := by
  induction n using PNode.inductionOn with
  | _ k cs ih =>
    intro b key hwf
    have hsib : sib_ok cs = true := by
      have := hwf
      rw [wf_node, Bool.and_eq_true] at this
      exact this.1
    have hch : wf_children cs = true := by
      have := hwf
      rw [wf_node, Bool.and_eq_true] at this
      exact this.2
    have hkeys := wf_children_forall cs hch
    by_cases hcond : b = true ∨ patricia_get_prefix_count key k = 0 ∨
        (0 < patricia_get_prefix_count key k ∧
         patricia_get_prefix_count key k < key.length ∧
         k.length ≤ patricia_get_prefix_count key k)
    · cases hsub : substring key (patricia_get_prefix_count key k)
          (key.length - patricia_get_prefix_count key k) with
      | none =>
        simp only [patricia_delete_internal, hsub] at *
        rw [if_pos hcond]
        exact hwf
      | some nk2 =>
        simp only [patricia_delete_internal, hsub]
        rw [if_pos hcond]
        rcases delete_children_spec cs nk2
            with ⟨heqv, _⟩ | ⟨l1, c, rest, heq, hl1, hc, hcase⟩
        · rw [heqv]
          exact hwf
        · rcases hcase with ⟨hk, hres⟩ | ⟨hk, hres⟩
          · rw [hres]
            rw [wf_node, Bool.and_eq_true]
            constructor
            · apply pairwise_sib_ok
              have hsublist : (l1 ++ rest).Sublist (l1 ++ c :: rest) :=
                (List.sublist_cons_self c rest).append_left l1
              exact (heq ▸ sib_ok_pairwise cs hsib).sublist hsublist
            · apply forall_wf_children
              intro x hx
              apply hkeys
              rw [heq]
              rcases List.mem_append.1 hx with hx' | hx'
              · exact List.mem_append_left _ hx'
              · exact List.mem_append_right _ (by simp [hx'])
          · rw [hres]
            have hmem : c ∈ cs := by
              rw [heq]
              simp
            have hcw := hkeys c hmem
            have hc'wf := ih c hmem false nk2 hcw.2
            have hc'key : (patricia_delete_internal false c nk2).1.key = c.key :=
              delete_internal_key false c nk2
            rw [wf_node, Bool.and_eq_true]
            constructor
            · apply pairwise_sib_ok
              apply pairwise_head_replace l1 rest c _ _ (by rw [hc'key])
              rw [← heq]
              exact sib_ok_pairwise cs hsib
            · apply forall_wf_children
              intro x hx
              rcases List.mem_append.1 hx with hx' | hx'
              · exact hkeys x (by rw [heq]; exact List.mem_append_left _ hx')
              · rcases List.mem_cons.1 hx' with rfl | hx''
                · exact ⟨by rw [hc'key]; exact hcw.1, hc'wf⟩
                · exact hkeys x
                    (by rw [heq]; exact List.mem_append_right _ (by simp [hx'']))
    · simp only [patricia_delete_internal]
      rw [if_neg hcond]
      exact hwf

/-! ## Deletion: the deleted key (and every extension) becomes unreachable -/

theorem pc_zero_of_head_ne (a b : CStr) (h : keyHead a ≠ keyHead b) :
    patricia_get_prefix_count a b = 0 := by
  cases a with
  | nil => exact pc_nil_left b
  | cons x s =>
    cases b with
    | nil => exact pc_nil_right _
    | cons y t =>
      have hxy : x ≠ y := by simpa [keyHead] using h
      simp [patricia_get_prefix_count, hxy]

theorem drop_append_le (l1 l2 : CStr) : ∀ n : Nat, n ≤ l1.length →
    (l1 ++ l2).drop n = l1.drop n ++ l2 := by
  induction l1 with
  | nil =>
    intro n h
    simp at h
    simp [h]
  | cons x t ih =>
    intro n h
    cases n with
    | zero => simp
    | succ m => simpa using ih m (by simpa using h)

theorem delete_children_of_lookup (l : List PNode) (nk2 : CStr)
    (ih : ∀ c ∈ l, patricia_lookup_internal false c nk2 = true →
          c.key ≠ nk2 → (patricia_delete_internal false c nk2).2 = true)
    (h : patricia_lookup_children l nk2 = true) :
    (patricia_delete_children l nk2).2 = true := by
  induction l with
  | nil => simp [patricia_lookup_children] at h
  | cons a rest ihl =>
    by_cases ha : keyHead a.key = keyHead nk2
    · rw [lookup_children_match a rest nk2 ha] at h
      by_cases hk : a.key = nk2
      · simp [patricia_delete_children, ha, hk]
      · have := ih a (by simp) h hk
        simp [patricia_delete_children, ha, hk, this]
    · simp only [patricia_lookup_children, ha, if_false] at h
      have := ihl (fun c hc => ih c (by simp [hc])) h
      simp [patricia_delete_children, ha, this]

/-- Core of C2 (first half): whenever the lookup finds a key, deleting that
key reports success. -/
theorem delete_of_lookup (n : PNode) : ∀ (b : Bool) (key : CStr),
    (b = false → n.key ≠ key) →
    patricia_lookup_internal b n key = true →
    (patricia_delete_internal b n key).2 = true := by
  induction n using PNode.inductionOn with
  | _ k cs ih =>
    intro b key hne hl
    by_cases hcond : b = true ∨ patricia_get_prefix_count key k = 0 ∨
        (0 < patricia_get_prefix_count key k ∧
         patricia_get_prefix_count key k < key.length ∧
         k.length ≤ patricia_get_prefix_count key k)
    · simp only [patricia_lookup_internal] at hl
      rw [if_pos hcond] at hl
      cases hsub : substring key (patricia_get_prefix_count key k)
          (key.length - patricia_get_prefix_count key k) with
      | none =>
        simp only [hsub] at hl
        cases hl
      | some nk2 =>
        simp only [hsub] at hl
        have := delete_children_of_lookup cs nk2
          (fun c hc h1 h2 => ih c hc false nk2 (fun _ => h2) h1) hl
        simp only [patricia_delete_internal, hsub]
        rw [if_pos hcond]
        exact this
    · simp only [patricia_lookup_internal] at hl
      rw [if_neg hcond] at hl
      by_cases hke : patricia_get_prefix_count key k = k.length
      · have hb' : b = false := by
          cases b with
          | false => rfl
          | true => exact absurd (Or.inl rfl) hcond
        have hpl0 : patricia_get_prefix_count key k ≠ 0 := by
          intro h0
          exact hcond (Or.inr (Or.inl h0))
        have hlt' : ¬patricia_get_prefix_count key k < key.length := by
          intro hlt
          exact hcond (Or.inr (Or.inr
            ⟨Nat.pos_of_ne_zero hpl0, hlt, le_of_eq hke.symm⟩))
        have hpleq : patricia_get_prefix_count key k = key.length := by
          have := pc_le_left key k
          omega
        have hkeyk : k = key := by
          have h1 := pc_take_eq key k
          rw [hpleq] at h1
          have hlen : key.length = k.length := by omega
          rw [List.take_length] at h1
          rw [hlen, List.take_length] at h1
          exact h1.symm
        exact absurd hkeyk (hne hb')
      · rw [if_neg hke] at hl
        cases hl

/-- Core of C2 (second half): after a successful delete of `key`, neither
`key` nor any extension `key ++ s` is found by the lookup any more. -/
theorem lookup_after_delete (n : PNode) : ∀ (b : Bool) (key : CStr),
    wf n = true → (b = true → n.key = []) → key ≠ [] →
    (patricia_delete_internal b n key).2 = true →
    ∀ s : CStr,
      patricia_lookup_internal b (patricia_delete_internal b n key).1
        (key ++ s) = false := by
  induction n using PNode.inductionOn with
  | _ k cs ih =>
    intro b key hwf hb hkey hflag s
    have hsib : sib_ok cs = true := by
      have := hwf
      rw [wf_node, Bool.and_eq_true] at this
      exact this.1
    have hch : wf_children cs = true := by
      have := hwf
      rw [wf_node, Bool.and_eq_true] at this
      exact this.2
    have hkeys := wf_children_forall cs hch
    have hple : patricia_get_prefix_count key k ≤ key.length := pc_le_left key k
    have hpk : patricia_get_prefix_count key k ≤ k.length := pc_le_right key k
    have hklen : 0 < key.length := List.length_pos.2 hkey
    by_cases hcond : b = true ∨ patricia_get_prefix_count key k = 0 ∨
        (0 < patricia_get_prefix_count key k ∧
         patricia_get_prefix_count key k < key.length ∧
         k.length ≤ patricia_get_prefix_count key k)
    · cases hsub : substring key (patricia_get_prefix_count key k)
          (key.length - patricia_get_prefix_count key k) with
      | none =>
        simp only [patricia_delete_internal, hsub] at hflag
        rw [if_pos hcond] at hflag
        cases hflag
      | some nk2 =>
        have hnk2 : nk2 = key.drop (patricia_get_prefix_count key k) := by
          rw [substring_drop key _ hkey hple] at hsub
          exact (Option.some.inj hsub).symm
        subst hnk2
        have hpllt : patricia_get_prefix_count key k < key.length := by
          rcases hcond with hb' | h0 | ⟨_, hlt, _⟩
          · have hk0 : k = [] := hb hb'
            subst hk0
            simpa [pc_nil_right] using hklen
          · omega
          · exact hlt
        have hnk2ne : key.drop (patricia_get_prefix_count key k) ≠ [] :=
          drop_ne_nil key _ hpllt
        simp only [patricia_delete_internal, hsub] at hflag ⊢
        rw [if_pos hcond] at hflag ⊢
        -- the prefix count against the extended key is unchanged
        have hpc2 : patricia_get_prefix_count (key ++ s) k =
            patricia_get_prefix_count key k := by
          rcases hcond with hb' | h0 | ⟨_, _, hge⟩
          · have hk0 : k = [] := hb hb'
            subst hk0
            rw [pc_nil_right, pc_nil_right]
          · rw [h0]
            cases k with
            | nil => exact pc_nil_right _
            | cons y t =>
              apply pc_zero_of_head_ne
              rw [keyHead_append key s hkey]
              intro he
              have := pc_pos key (y :: t) hkey (by simp) he
              omega
          · have hpleq : patricia_get_prefix_count key k = k.length := by omega
            have htk : key.take (patricia_get_prefix_count key k) = k := by
              have h1 := pc_take_eq key k
              rw [hpleq] at h1
              rw [hpleq]
              rw [h1, List.take_length]
            have hsplit : key = k ++ key.drop (patricia_get_prefix_count key k) := by
              conv_lhs => rw [← List.take_append_drop
                (patricia_get_prefix_count key k) key]
              rw [htk]
            rw [hpleq]
            calc patricia_get_prefix_count (key ++ s) k
                = patricia_get_prefix_count
                    (k ++ (key.drop (patricia_get_prefix_count key k) ++ s)) k := by
                  rw [← List.append_assoc, ← hsplit]
              _ = k.length := pc_prefix k _
        have hcond2 : b = true ∨ patricia_get_prefix_count (key ++ s) k = 0 ∨
            (0 < patricia_get_prefix_count (key ++ s) k ∧
             patricia_get_prefix_count (key ++ s) k < (key ++ s).length ∧
             k.length ≤ patricia_get_prefix_count (key ++ s) k) := by
          rw [hpc2]
          rcases hcond with hb' | h0 | ⟨h1, h2, h3⟩
          · exact Or.inl hb'
          · exact Or.inr (Or.inl h0)
          · refine Or.inr (Or.inr ⟨h1, ?_, h3⟩)
            simp only [List.length_append]
            omega
        have hsub2 : substring (key ++ s) (patricia_get_prefix_count (key ++ s) k)
            ((key ++ s).length - patricia_get_prefix_count (key ++ s) k) =
            some (key.drop (patricia_get_prefix_count key k) ++ s) := by
          rw [hpc2]
          rw [substring_drop (key ++ s) _ (by simp [hkey])
            (by simp only [List.length_append]; omega)]
          rw [drop_append_le key s _ hple]
        have hhead : keyHead (key.drop (patricia_get_prefix_count key k) ++ s) =
            keyHead (key.drop (patricia_get_prefix_count key k)) :=
          keyHead_append _ s hnk2ne
        simp only [patricia_lookup_internal, hsub2]
        rw [if_pos hcond2]
        rcases delete_children_spec cs (key.drop (patricia_get_prefix_count key k))
            with ⟨heqv, _⟩ | ⟨l1, c, rest, heq, hl1, hc, hcase⟩
        · rw [heqv] at hflag
          cases hflag
        · rcases hcase with ⟨hck, hres2⟩ | ⟨hck, hres2⟩
          · rw [hres2]
            apply lookup_children_none
            intro a ha
            rw [hhead]
            have hp := sib_ok_pairwise cs hsib
            rw [heq, List.pairwise_append] at hp
            rcases List.mem_append.1 ha with ha' | ha'
            · exact hl1 a ha'
            · have := (List.pairwise_cons.1 hp.2.1).1 a ha'
              rw [hc] at this
              exact fun e => absurd e.symm (ne_of_lt this)
          · rw [hres2] at hflag ⊢
            have hmem : c ∈ cs := by
              rw [heq]
              simp
            have hih := ih c hmem false _ (hkeys c hmem).2 (by simp) hnk2ne
              hflag s
            rw [lookup_children_no_match l1 _ _
              (fun a ha' => by rw [hhead]; exact hl1 a ha')]
            rw [lookup_children_match _ _ _ (by
              rw [delete_internal_key, hhead, hc])]
            exact hih
    · simp only [patricia_delete_internal] at hflag
      rw [if_neg hcond] at hflag
      cases hflag

/-! ## Claim C2 -/

/-- C2: for every well-formed tree (root fragment empty), if `patricia_add`
of `k` succeeds and `patricia_delete` of `k` is then called, the delete
reports success, `patricia_lookup` of `k` returns false, and so does the
lookup of every strictly longer key having `k` as a prefix: the whole
family below the deleted node is gone. -/
theorem claim_C2_delete_removes_family (t t' : patricia_tree_t) (key : CStr)
    (hwf : wf t.root = true) (hroot : t.root.key = [])
    (hadd : patricia_add t key = some t') :
    (patricia_delete t' key).2 = true ∧
    patricia_lookup (patricia_delete t' key).1 key = false ∧
    ∀ s : CStr, s ≠ [] →
      patricia_lookup (patricia_delete t' key).1 (key ++ s) = false := by
  have hkey : key ≠ [] := by
    intro h0
    subst h0
    rw [patricia_add, add_nil] at hadd
    cases hadd
  rcases Option.map_eq_some'.1 hadd with ⟨n', hn', heqt⟩
  have hwf' : wf n' = true :=
    wf_add t.root true key n' hwf (fun _ => hroot) hn'
  have hroot' : n'.key = [] := by
    rcases add_key_shape true t.root key n' hn' with he | ⟨pl, _, _, he⟩
    · rw [he, hroot]
    · rw [he, hroot]
      simp
  have hlook : patricia_lookup_internal true n' key = true :=
    lookup_after_add t.root true key n' hkey (fun _ => hroot) hn'
  have hflag : (patricia_delete_internal true n' key).2 = true :=
    delete_of_lookup n' true key (by simp) hlook
  have hall := lookup_after_delete n' true key hwf' (fun _ => hroot') hkey hflag
  have ht'root : t'.root = n' := by
    rw [← heqt]
  refine ⟨?_, ?_, ?_⟩
  · simp only [patricia_delete, ht'root]
    exact hflag
  · have := hall []
    simpa [patricia_delete, patricia_lookup, ht'root] using this
  · intro s _
    have := hall s
    simpa [patricia_delete, patricia_lookup, ht'root] using this

theorem claim_C2_witness :
    wf (patricia_tree_t.mk (.node [] [])).root = true ∧
    (patricia_tree_t.mk (.node [] [])).root.key = [] ∧
    patricia_add ⟨.node [] []⟩ ['a'] = some ⟨.node [] [.node ['a'] []]⟩ ∧
    (patricia_delete ⟨.node [] [.node ['a'] []]⟩ ['a']).2 = true ∧
    patricia_lookup (patricia_delete ⟨.node [] [.node ['a'] []]⟩ ['a']).1
      ['a'] = false ∧
    patricia_lookup (patricia_delete ⟨.node [] [.node ['a'] []]⟩ ['a']).1
      (['a'] ++ ['b']) = false := by
  have h := claim_C2_delete_removes_family ⟨.node [] []⟩
    ⟨.node [] [.node ['a'] []]⟩ ['a'] rfl rfl rfl
  exact ⟨rfl, rfl, rfl, h.1, h.2.1, h.2.2 ['b'] (by decide)⟩

/-! ## Claim C6: invariants of reachable trees -/

theorem root_key_reachable (t : patricia_tree_t) (h : Reachable t) :
    t.root.key = [] := by
  induction h with
  | init => rfl
  | add t t' k hr hadd ih =>
    rcases Option.map_eq_some'.1 hadd with ⟨n', hn', heqt⟩
    rcases add_key_shape true t.root k n' hn' with he | ⟨pl, _, _, he⟩
    · rw [← heqt]
      show n'.key = []
      rw [he, ih]
    · rw [← heqt]
      show n'.key = []
      rw [he, ih]
      simp
  | del t k hr ih =>
    show (patricia_delete_internal true t.root k).1.key = []
    rw [delete_internal_key, ih]

theorem wf_reachable (t : patricia_tree_t) (h : Reachable t) :
    wf t.root = true := by
  induction h with
  | init => rfl
  | add t t' k hr hadd ih =>
    rcases Option.map_eq_some'.1 hadd with ⟨n', hn', heqt⟩
    rw [← heqt]
    exact wf_add t.root true k n' ih (fun _ => root_key_reachable t hr) hn'
  | del t k hr ih =>
    exact wf_delete t.root true k ih

theorem all_nodes_children_mem (cs : List PNode) (m : PNode)
    (h : m ∈ all_nodes_children cs) : ∃ c ∈ cs, m ∈ all_nodes c := by
  induction cs with
  | nil => cases h
  | cons c rest ih =>
    simp only [all_nodes_children] at h
    rcases List.mem_append.1 h with h' | h'
    · exact ⟨c, by simp, h'⟩
    · rcases ih h' with ⟨c', hc', hm⟩
      exact ⟨c', by simp [hc'], hm⟩

theorem wf_all_nodes (n : PNode) : ∀ m ∈ all_nodes n, wf n = true →
    sib_ok m.children = true ∧ wf_children m.children = true := by
  induction n using PNode.inductionOn with
  | _ k cs ih =>
    intro m hm hwf
    have hsib : sib_ok cs = true := by
      rw [wf_node, Bool.and_eq_true] at hwf
      exact hwf.1
    have hch : wf_children cs = true := by
      rw [wf_node, Bool.and_eq_true] at hwf
      exact hwf.2
    simp only [all_nodes] at hm
    rcases List.mem_cons.1 hm with rfl | hm'
    · exact ⟨hsib, hch⟩
    · rcases all_nodes_children_mem cs m hm' with ⟨c, hc, hmc⟩
      exact ih c hc m hmc (wf_children_forall cs hch c hc).2

theorem pairwise_head_to_rel (l : List PNode)
    (hp : l.Pairwise (fun a b => keyHead a.key < keyHead b.key))
    (hk : ∀ c ∈ l, c.key ≠ []) :
    l.Pairwise (fun a b => strLt a.key b.key = true ∧
      keyHead a.key ≠ keyHead b.key ∧
      (∀ s : CStr, b.key ≠ a.key ++ s) ∧
      (∀ s : CStr, a.key ≠ b.key ++ s)) := by
  induction l with
  | nil => exact List.Pairwise.nil
  | cons a rest ih =>
    rcases List.pairwise_cons.1 hp with ⟨hfirst, hrest⟩
    refine List.pairwise_cons.2
      ⟨?_, ih hrest (fun c hc => hk c (by simp [hc]))⟩
    intro b hb
    have ha : a.key ≠ [] := hk a (by simp)
    have hbk : b.key ≠ [] := hk b (by simp [hb])
    have hlt := hfirst b hb
    refine ⟨strLt_of_head_lt _ _ ha hbk hlt, ne_of_lt hlt, ?_, ?_⟩
    · intro s hs
      apply ne_of_lt hlt
      rw [hs, keyHead_append _ _ ha]
    · intro s hs
      apply ne_of_lt hlt
      rw [hs, keyHead_append _ _ hbk]

/-- C6: in every tree reachable from the empty tree by adds and deletes,
every node's children are (pairwise, in iteration order) strictly ascending
by byte-value lexicographic comparison of their fragments, no two share a
leading byte, and neither fragment is a byte-prefix of the other. -/
theorem claim_C6_sibling_invariants (t : patricia_tree_t) (h : Reachable t) :
    ∀ n ∈ all_nodes t.root,
      n.children.Pairwise (fun a b => strLt a.key b.key = true ∧
        keyHead a.key ≠ keyHead b.key ∧
        (∀ s : CStr, b.key ≠ a.key ++ s) ∧
        (∀ s : CStr, a.key ≠ b.key ++ s)) := by
  intro n hn
  have hwf := wf_reachable t h
  have hfacts := wf_all_nodes t.root n hn hwf
  exact pairwise_head_to_rel n.children (sib_ok_pairwise _ hfacts.1)
    (fun c hc => (wf_children_forall _ hfacts.2 c hc).1)

theorem claim_C6_witness :
    (PNode.node ['c','a'] [.node ['r'] [], .node ['t'] []]).children.Pairwise
      (fun a b => strLt a.key b.key = true ∧
        keyHead a.key ≠ keyHead b.key ∧
        (∀ s : CStr, b.key ≠ a.key ++ s) ∧
        (∀ s : CStr, a.key ≠ b.key ++ s)) :=
  claim_C6_sibling_invariants
    ⟨.node [] [.node ['c','a'] [.node ['r'] [], .node ['t'] []],
               .node ['d','o','g'] []]⟩
    (Reachable.add _ _ ['d','o','g']
      (Reachable.add _ _ ['c','a','r']
        (Reachable.add _ _ ['c','a','t'] Reachable.init rfl) rfl) rfl)
    (PNode.node ['c','a'] [.node ['r'] [], .node ['t'] []])
    (by simp [all_nodes, all_nodes_children])

/-! ## Claim C8 -/

/-- C8: the null-key half of the claim holds (the internal sanity check
returns 0), but a null tree is dereferenced (`tree->root`) before any null
check runs, so the call is undefined behaviour (`none` in the model), not a
`false` result: the code contradicts the claim for null trees. -/
theorem claim_C8_null_arguments :
    patricia_lookup_nullable none (some ['a']) = none ∧
    patricia_lookup_nullable none (some ['a']) ≠ some false ∧
    (∀ t : patricia_tree_t, patricia_lookup_nullable (some t) none = some false) := by
  refine ⟨rfl, ?_, fun t => rfl⟩
  intro h
  cases h

/-! ## Claim C3 -/

/-- C3 counterexample: after inserting exactly "cat", "car", "dog" into an
empty tree, `patricia_lookup(tree, "ca")` returns 1 (true), not the claimed
false: the descent consumes "ca" exactly at the internal split node and the
implementation has no marker distinguishing stored keys from internal
nodes. -/
theorem claim_C3_counterexample :
    patricia_add ⟨.node [] []⟩ ['c','a','t'] =
      some ⟨.node [] [.node ['c','a','t'] []]⟩ ∧
    patricia_add ⟨.node [] [.node ['c','a','t'] []]⟩ ['c','a','r'] =
      some ⟨.node [] [.node ['c','a'] [.node ['r'] [], .node ['t'] []]]⟩ ∧
    patricia_add ⟨.node [] [.node ['c','a'] [.node ['r'] [], .node ['t'] []]]⟩
      ['d','o','g'] =
      some ⟨.node [] [.node ['c','a'] [.node ['r'] [], .node ['t'] []],
                      .node ['d','o','g'] []]⟩ ∧
    patricia_lookup
      ⟨.node [] [.node ['c','a'] [.node ['r'] [], .node ['t'] []],
                 .node ['d','o','g'] []]⟩ ['c','a'] = true :=
  ⟨rfl, rfl, rfl, rfl⟩

/-- C3 amended: after inserting exactly "cat", "car", "dog" into an empty
tree, `patricia_lookup_prefix_full(tree, "ca")` yields exactly the token
set {"cat", "car"} (as the buffer "car cat "), `patricia_lookup(tree,
"cat")` is true, and `patricia_lookup(tree, "ca")` is also true (not
false): the lookup reports any byte string that exactly spells a node
boundary, stored key or not. -/
theorem claim_C3_amended :
    patricia_add ⟨.node [] []⟩ ['c','a','t'] =
      some ⟨.node [] [.node ['c','a','t'] []]⟩ ∧
    patricia_add ⟨.node [] [.node ['c','a','t'] []]⟩ ['c','a','r'] =
      some ⟨.node [] [.node ['c','a'] [.node ['r'] [], .node ['t'] []]]⟩ ∧
    patricia_add ⟨.node [] [.node ['c','a'] [.node ['r'] [], .node ['t'] []]]⟩
      ['d','o','g'] =
      some ⟨.node [] [.node ['c','a'] [.node ['r'] [], .node ['t'] []],
                      .node ['d','o','g'] []]⟩ ∧
    patricia_lookup_prefix_full
      ⟨.node [] [.node ['c','a'] [.node ['r'] [], .node ['t'] []],
                 .node ['d','o','g'] []]⟩ ['c','a'] [] =
      some ['c','a','r',' ','c','a','t',' '] ∧
    (∀ s : CStr, s ∈ buffer_tokens ['c','a','r',' ','c','a','t',' '] ↔
      (s = ['c','a','t'] ∨ s = ['c','a','r'])) ∧
    (buffer_tokens ['c','a','r',' ','c','a','t',' ']).Nodup ∧
    patricia_lookup
      ⟨.node [] [.node ['c','a'] [.node ['r'] [], .node ['t'] []],
                 .node ['d','o','g'] []]⟩ ['c','a'] = true ∧
    patricia_lookup
      ⟨.node [] [.node ['c','a'] [.node ['r'] [], .node ['t'] []],
                 .node ['d','o','g'] []]⟩ ['c','a','t'] = true := by
  refine ⟨rfl, rfl, rfl, rfl, ?_, by decide, rfl, rfl⟩
  intro s
  have h : buffer_tokens ['c','a','r',' ','c','a','t',' '] =
      [['c','a','r'], ['c','a','t']] := rfl
  rw [h]
  simp only [List.mem_cons, List.not_mem_nil, or_false]
  exact or_comm

/-! ## Claim C4 -/

/-- C4 failing input: with exactly "a" and "aa" stored, the prefix "aa"
resolves to the deep leaf with fragment "a", but `strstr("aa", "a")` finds
the *first* occurrence of that fragment (offset 0 instead of 1), so the
uncovered portion seeded into the accumulator is "" instead of "a", and the
single emitted token is "a": it is not the uncovered portion concatenated
with the path fragments ("aa"), and it does not begin with the
prefix "aa" even though `lookup("aa")` is true. -/
theorem claim_C4_strstr_misalignment :
    patricia_add ⟨.node [] []⟩ ['a'] = some ⟨.node [] [.node ['a'] []]⟩ ∧
    patricia_add ⟨.node [] [.node ['a'] []]⟩ ['a','a'] =
      some ⟨.node [] [.node ['a'] [.node ['a'] []]]⟩ ∧
    patricia_lookup ⟨.node [] [.node ['a'] [.node ['a'] []]]⟩ ['a','a'] = true ∧
    patricia_lookup_prefix_full ⟨.node [] [.node ['a'] [.node ['a'] []]]⟩
      ['a','a'] [] = some ['a',' '] ∧
    buffer_tokens ['a',' '] = [['a']] ∧
    (∀ tok ∈ buffer_tokens ['a',' '], ∀ s : CStr, tok ≠ ['a','a'] ++ s) := by
  refine ⟨rfl, rfl, rfl, rfl, rfl, ?_⟩
  intro tok htok s
  have h : tok = ['a'] := by
    have hb : buffer_tokens ['a',' '] = [['a']] := rfl
    rw [hb] at htok
    simpa using htok
  subst h
  intro he
  cases he

/-! ## Claim C10 -/

/-- C10 counterexample: the claimed "appended iff its characters do not
already occur as a leading match inside some space-delimited region" is
false of the code.  With keys "aab" and "ab/" stored, prefix "a": the
first emitted token is "aab"; the later candidate "ab" *does* occur as a
leading match inside the region "aab" of the buffer (offset 1), yet the
`is_substring` scan shares its index with the outer loop, skips that
offset after the partial match at offset 0, reports "not found", and the
token is appended anyway. -/
theorem claim_C10_counterexample :
    patricia_add ⟨.node [] []⟩ ['a','a','b'] =
      some ⟨.node [] [.node ['a','a','b'] []]⟩ ∧
    patricia_add ⟨.node [] [.node ['a','a','b'] []]⟩ ['a','b','/'] =
      some ⟨.node [] [.node ['a'] [.node ['a','b'] [], .node ['b','/'] []]]⟩ ∧
    claimed_occurs ['a','a','b',' '] ['a','b'] = true ∧
    is_substring ['a','a','b',' '] ['a','b'] = false ∧
    patricia_lookup_prefix_part
      ⟨.node [] [.node ['a'] [.node ['a','b'] [], .node ['b','/'] []]]⟩
      ['a'] [] = some ['a','a','b',' ','a','b',' '] ∧
    ['a','b'] ∈ buffer_tokens ['a','a','b',' ','a','b',' '] :=
  ⟨rfl, rfl, rfl, rfl, rfl, by decide⟩

/-- C10 amended: a candidate token is appended to the output buffer iff
the `is_substring` test fails on the buffer accumulated so far; that scan
attempts leading matches at successive offsets but shares its index with
the outer loop, so offsets inside a partially matched run are skipped and
genuine occurrences can be missed (with keys "aab","ab/" and prefix "a"
the token "ab" occurs inside the earlier token "aab" yet is appended).
Consequently, for some inputs a distinct valid token that is a substring
of an earlier-emitted token is silently omitted from the result set: with
keys "a-a" and "a/" stored, prefix "a", the candidate "a" (the token for
the stored key "a/") is found by the scan inside "a-a " and dropped. -/
theorem claim_C10_amended_guard :
    (∀ rl tok : CStr,
      (part_append rl tok = rl ↔ is_substring rl tok = true) ∧
      (part_append rl tok = rl ++ tok ++ [' '] ↔
        is_substring rl tok = false)) ∧
    is_substring ['a','a','b',' '] ['a','b'] = false ∧
    claimed_occurs ['a','a','b',' '] ['a','b'] = true ∧
    patricia_add ⟨.node [] []⟩ ['a','-','a'] =
      some ⟨.node [] [.node ['a','-','a'] []]⟩ ∧
    patricia_add ⟨.node [] [.node ['a','-','a'] []]⟩ ['a','/'] =
      some ⟨.node [] [.node ['a'] [.node ['-','a'] [], .node ['/'] []]]⟩ ∧
    patricia_lookup ⟨.node [] [.node ['a'] [.node ['-','a'] [], .node ['/'] []]]⟩
      ['a','/'] = true ∧
    patricia_part_cand_list
      ⟨.node [] [.node ['a'] [.node ['-','a'] [], .node ['/'] []]]⟩ ['a'] =
      [['a','-','a'], ['a']] ∧
    is_substring ['a','-','a',' '] ['a'] = true ∧
    patricia_part_token_list
      ⟨.node [] [.node ['a'] [.node ['-','a'] [], .node ['/'] []]]⟩ ['a'] =
      [['a','-','a']] ∧
    patricia_lookup_prefix_part
      ⟨.node [] [.node ['a'] [.node ['-','a'] [], .node ['/'] []]]⟩ ['a'] [] =
      some ['a','-','a',' '] ∧
    ['a'] ∉ buffer_tokens ['a','-','a',' '] := by
  refine ⟨?_, rfl, rfl, rfl, rfl, rfl, rfl, rfl, rfl, rfl, by decide⟩
  intro rl tok
  by_cases hg : is_substring rl tok = true
  · constructor
    · simp [part_append, hg]
    · simp only [part_append, hg, if_true]
      constructor
      · intro h
        have := congrArg List.length h
        simp at this
      · intro h
        cases h
  · have hg' : is_substring rl tok = false := by
      simpa using hg
    constructor
    · simp only [part_append, hg', Bool.false_eq_true, if_false]
      constructor
      · intro h
        have := congrArg List.length h
        simp at this
      · intro h
        exact h.elim
    · simp [part_append, hg']

/-! ## Claim C5: no duplicate tokens in one enumeration call -/

theorem full_tokens_children_mem (cs : List PNode) (a t : CStr)
    (h : t ∈ full_tokens_children cs a) : ∃ c ∈ cs, t ∈ full_tokens c a := by
  induction cs with
  | nil => cases h
  | cons c rest ih =>
    simp only [full_tokens_children] at h
    rcases List.mem_append.1 h with h' | h'
    · exact ⟨c, by simp, h'⟩
    · rcases ih h' with ⟨c', hc', ht'⟩
      exact ⟨c', by simp [hc'], ht'⟩

theorem full_tokens_shape (n : PNode) : ∀ a t, t ∈ full_tokens n a →
    ∃ s, t = a ++ n.key ++ s := by
  induction n using PNode.inductionOn with
  | _ k cs ih =>
    intro a t ht
    simp only [full_tokens] at ht
    by_cases hcs : cs.isEmpty = true
    · rw [if_pos hcs] at ht
      rcases List.mem_singleton.1 ht with rfl
      exact ⟨[], by simp [PNode.key]⟩
    · rw [if_neg hcs] at ht
      rcases full_tokens_children_mem cs (a ++ k) t ht with ⟨c, hc, htc⟩
      rcases ih c hc (a ++ k) t htc with ⟨s, hs⟩
      exact ⟨c.key ++ s, by simp [PNode.key, hs]⟩

theorem full_tokens_children_nodup (cs : List PNode) (a : CStr)
    (ih : ∀ c ∈ cs, ∀ res, wf c = true → (full_tokens c res).Nodup)
    (hp : cs.Pairwise (fun x y => keyHead x.key < keyHead y.key))
    (hw : ∀ c ∈ cs, c.key ≠ [] ∧ wf c = true) :
    (full_tokens_children cs a).Nodup := by
  induction cs with
  | nil => simp [full_tokens_children]
  | cons c rest ihl =>
    rcases List.pairwise_cons.1 hp with ⟨hfirst, hrest⟩
    simp only [full_tokens_children]
    apply List.Nodup.append
    · exact ih c (by simp) a (hw c (by simp)).2
    · exact ihl (fun x hx => ih x (by simp [hx])) hrest
        (fun x hx => hw x (by simp [hx]))
    · intro t ht1 ht2
      rcases full_tokens_shape c a t ht1 with ⟨s, hs⟩
      rcases full_tokens_children_mem rest a t ht2 with ⟨c', hc', htc'⟩
      rcases full_tokens_shape c' a t htc' with ⟨s', hs'⟩
      rw [hs] at hs'
      have hk : c.key ++ s = c'.key ++ s' := by
        rw [List.append_assoc, List.append_assoc] at hs'
        exact List.append_cancel_left hs'
      have hhead : keyHead c.key = keyHead c'.key := by
        have h1 := keyHead_append c.key s (hw c (by simp)).1
        have h2 := keyHead_append c'.key s' (hw c' (by simp [hc'])).1
        rw [← h1, hk, h2]
      exact absurd hhead (ne_of_lt (hfirst c' hc'))

theorem full_tokens_nodup (n : PNode) : ∀ a, wf n = true →
    (full_tokens n a).Nodup := by
  induction n using PNode.inductionOn with
  | _ k cs ih =>
    intro a hwf
    have hsib : sib_ok cs = true := by
      rw [wf_node, Bool.and_eq_true] at hwf
      exact hwf.1
    have hch : wf_children cs = true := by
      rw [wf_node, Bool.and_eq_true] at hwf
      exact hwf.2
    simp only [full_tokens]
    by_cases hcs : cs.isEmpty = true
    · rw [if_pos hcs]
      exact List.nodup_singleton _
    · rw [if_neg hcs]
      exact full_tokens_children_nodup cs (a ++ k) (fun c hc => ih c hc)
        (sib_ok_pairwise cs hsib) (wf_children_forall cs hch)

theorem lookup_node_children_inv (cs : List PNode) (key : CStr) (m : PNode)
    (h : patricia_lookup_node_children cs key = some m) :
    ∃ c ∈ cs, patricia_lookup_node_internal false c key = some m := by
  induction cs with
  | nil => simp [patricia_lookup_node_children] at h
  | cons c rest ih =>
    by_cases hc : keyHead c.key = keyHead key
    · simp only [patricia_lookup_node_children, hc, if_pos] at h
      exact ⟨c, by simp, h⟩
    · simp only [patricia_lookup_node_children, hc, if_false] at h
      rcases ih h with ⟨c', h1, h2⟩
      exact ⟨c', by simp [h1], h2⟩

/-- The node resolved for a prefix inside a well-formed tree is itself
well-formed. -/
theorem wf_lookup_node (n : PNode) : ∀ (b : Bool) (key : CStr) (m : PNode),
    wf n = true → patricia_lookup_node_internal b n key = some m →
    wf m = true := by
  induction n using PNode.inductionOn with
  | _ k cs ih =>
    intro b key m hwf h
    have hch : wf_children cs = true := by
      rw [wf_node, Bool.and_eq_true] at hwf
      exact hwf.2
    by_cases hcond : b = true ∨ patricia_get_prefix_count key k = 0 ∨
        (0 < patricia_get_prefix_count key k ∧
         patricia_get_prefix_count key k < key.length ∧
         k.length ≤ patricia_get_prefix_count key k)
    · simp only [patricia_lookup_node_internal] at h
      rw [if_pos hcond] at h
      cases hsub : substring key (patricia_get_prefix_count key k)
          (key.length - patricia_get_prefix_count key k) with
      | none =>
        simp only [hsub] at h
        cases h
      | some nk2 =>
        simp only [hsub] at h
        rcases lookup_node_children_inv cs nk2 m h with ⟨c, hc, hrec⟩
        exact ih c hc false nk2 m (wf_children_forall cs hch c hc).2 hrec
    · simp only [patricia_lookup_node_internal] at h
      rw [if_neg hcond] at h
      by_cases hke : patricia_get_prefix_count key k = k.length
      · rw [if_pos hke] at h
        have := Option.some.inj h
        subst this
        exact hwf
      · rw [if_neg hke] at h
        cases h

theorem keyHead_dropLast (l : CStr) (h : l.dropLast ≠ []) :
    keyHead l.dropLast = keyHead l := by
  cases l with
  | nil => rfl
  | cons x t =>
    cases t with
    | nil => simp at h
    | cons y t' => simp [keyHead]

theorem delim_singleton (l : CStr) (hne : l ≠ [])
    (hdrop : l.dropLast = []) (hd : patricia_key_has_delimiter l = true) :
    keyHead l = '/' := by
  cases l with
  | nil => exact absurd rfl hne
  | cons x t =>
    cases t with
    | nil =>
      simp [patricia_key_has_delimiter] at hd
      simp [keyHead, hd]
    | cons y t' => simp at hdrop

theorem part_cands_children_mem (cs : List PNode) (acc t : CStr)
    (h : t ∈ part_cands_children cs acc) :
    ∃ c ∈ cs,
      (patricia_key_has_delimiter c.key = true ∧ t = acc ++ c.key.dropLast) ∨
      (patricia_key_has_delimiter c.key = false ∧
        t ∈ part_cands c (acc ++ c.key)) := by
  induction cs with
  | nil => cases h
  | cons c rest ih =>
    simp only [part_cands_children] at h
    rcases List.mem_append.1 h with h' | h'
    · by_cases hd : patricia_key_has_delimiter c.key = true
      · rw [if_pos hd] at h'
        rcases List.mem_singleton.1 h' with rfl
        exact ⟨c, by simp, Or.inl ⟨hd, rfl⟩⟩
      · rw [if_neg hd] at h'
        exact ⟨c, by simp, Or.inr ⟨by simpa using hd, h'⟩⟩
    · rcases ih h' with ⟨c', hc', hcase⟩
      exact ⟨c', by simp [hc'], hcase⟩

theorem part_cands_shape (n : PNode) : ∀ acc t, t ∈ part_cands n acc →
    ∃ s, t = acc ++ s := by
  induction n using PNode.inductionOn with
  | _ k cs ih =>
    intro acc t ht
    simp only [part_cands] at ht
    by_cases hcs : cs.isEmpty = true
    · rw [if_pos hcs] at ht
      rcases List.mem_singleton.1 ht with rfl
      exact ⟨[], by simp⟩
    · rw [if_neg hcs] at ht
      rcases part_cands_children_mem cs acc t ht with ⟨c, hc, hcase⟩
      rcases hcase with ⟨_, rfl⟩ | ⟨_, hmem⟩
      · exact ⟨c.key.dropLast, rfl⟩
      · rcases ih c hc (acc ++ c.key) t hmem with ⟨s, hs⟩
        exact ⟨c.key ++ s, by simp [hs]⟩

theorem part_child_token_head (c : PNode) (acc t : CStr) (hck : c.key ≠ [])
    (h : (patricia_key_has_delimiter c.key = true ∧ t = acc ++ c.key.dropLast) ∨
         (patricia_key_has_delimiter c.key = false ∧
           t ∈ part_cands c (acc ++ c.key))) :
    ∃ u, t = acc ++ u ∧
      ((u = [] ∧ keyHead c.key = '/') ∨
       (u ≠ [] ∧ keyHead u = keyHead c.key)) := by
  rcases h with ⟨hd, rfl⟩ | ⟨_, hmem⟩
  · refine ⟨c.key.dropLast, rfl, ?_⟩
    by_cases hu : c.key.dropLast = []
    · exact Or.inl ⟨hu, delim_singleton c.key hck hu hd⟩
    · exact Or.inr ⟨hu, keyHead_dropLast c.key hu⟩
  · rcases part_cands_shape c (acc ++ c.key) t hmem with ⟨s, rfl⟩
    refine ⟨c.key ++ s, by simp, Or.inr ⟨by simp [hck], ?_⟩⟩
    exact keyHead_append c.key s hck

theorem part_cands_children_nodup (cs : List PNode) (acc : CStr)
    (ih : ∀ c ∈ cs, ∀ a, wf c = true → (part_cands c a).Nodup)
    (hp : cs.Pairwise (fun x y => keyHead x.key < keyHead y.key))
    (hw : ∀ c ∈ cs, c.key ≠ [] ∧ wf c = true) :
    (part_cands_children cs acc).Nodup := by
  induction cs with
  | nil => simp [part_cands_children]
  | cons c rest ihl =>
    rcases List.pairwise_cons.1 hp with ⟨hfirst, hrest⟩
    simp only [part_cands_children]
    apply List.Nodup.append
    · by_cases hd : patricia_key_has_delimiter c.key = true
      · rw [if_pos hd]
        exact List.nodup_singleton _
      · rw [if_neg hd]
        exact ih c (by simp) _ (hw c (by simp)).2
    · exact ihl (fun x hx => ih x (by simp [hx])) hrest
        (fun x hx => hw x (by simp [hx]))
    · intro t ht1 ht2
      have hmem1 : (patricia_key_has_delimiter c.key = true ∧
          t = acc ++ c.key.dropLast) ∨
          (patricia_key_has_delimiter c.key = false ∧
            t ∈ part_cands c (acc ++ c.key)) := by
        by_cases hd : patricia_key_has_delimiter c.key = true
        · rw [if_pos hd] at ht1
          exact Or.inl ⟨hd, List.mem_singleton.1 ht1⟩
        · rw [if_neg hd] at ht1
          exact Or.inr ⟨by simpa using hd, ht1⟩
      rcases part_child_token_head c acc t (hw c (by simp)).1 hmem1
        with ⟨u, rfl, hu⟩
      rcases part_cands_children_mem rest acc _ ht2 with ⟨c', hc', hcase'⟩
      rcases part_child_token_head c' acc _ (hw c' (by simp [hc'])).1 hcase'
        with ⟨u', hu'eq, hu'⟩
      have huu : u = u' := List.append_cancel_left hu'eq
      subst huu
      have hlt := hfirst c' hc'
      rcases hu with ⟨hue, hch⟩ | ⟨hune, hch⟩
      · rcases hu' with ⟨_, hch'⟩ | ⟨hune', _⟩
        · rw [hch, hch'] at hlt
          exact lt_irrefl _ hlt
        · exact hune' hue
      · rcases hu' with ⟨hue', _⟩ | ⟨_, hch'⟩
        · exact hune hue'
        · rw [← hch, hch'] at hlt
          exact lt_irrefl _ hlt

theorem part_cands_nodup (n : PNode) : ∀ acc, wf n = true →
    (part_cands n acc).Nodup := by
  induction n using PNode.inductionOn with
  | _ k cs ih =>
    intro acc hwf
    have hsib : sib_ok cs = true := by
      rw [wf_node, Bool.and_eq_true] at hwf
      exact hwf.1
    have hch : wf_children cs = true := by
      rw [wf_node, Bool.and_eq_true] at hwf
      exact hwf.2
    simp only [part_cands]
    by_cases hcs : cs.isEmpty = true
    · rw [if_pos hcs]
      exact List.nodup_singleton _
    · rw [if_neg hcs]
      exact part_cands_children_nodup cs acc (fun c hc => ih c hc)
        (sib_ok_pairwise cs hsib) (wf_children_forall cs hch)

theorem emit_one_append (out : List CStr) (tok : CStr) :
    ∃ d, emit_one out tok = out ++ d ∧ d.Sublist [tok] := by
  unfold emit_one
  split
  · exact ⟨[], by simp, by simp⟩
  · exact ⟨[tok], rfl, List.Sublist.refl _⟩

theorem part_emit_children_append (cs : List PNode)
    (ih : ∀ c ∈ cs, ∀ acc out, ∃ d, part_emit c acc out = out ++ d ∧
      d.Sublist (part_cands c acc)) :
    ∀ acc out, ∃ d, part_emit_children cs acc out = out ++ d ∧
      d.Sublist (part_cands_children cs acc) := by
  induction cs with
  | nil =>
    intro acc out
    exact ⟨[], by simp [part_emit_children], by simp [part_cands_children]⟩
  | cons c rest ihl =>
    intro acc out
    simp only [part_emit_children, part_cands_children]
    by_cases hd : patricia_key_has_delimiter c.key = true
    · rw [if_pos hd, if_pos hd]
      rcases emit_one_append out (acc ++ c.key.dropLast) with ⟨d1, he1, hs1⟩
      rcases ihl (fun x hx => ih x (by simp [hx])) acc (out ++ d1)
        with ⟨d2, he2, hs2⟩
      refine ⟨d1 ++ d2, ?_, hs1.append hs2⟩
      rw [he1, he2, List.append_assoc]
    · rw [if_neg hd, if_neg hd]
      rcases ih c (by simp) (acc ++ c.key) out with ⟨d1, he1, hs1⟩
      rcases ihl (fun x hx => ih x (by simp [hx])) acc (out ++ d1)
        with ⟨d2, he2, hs2⟩
      refine ⟨d1 ++ d2, ?_, hs1.append hs2⟩
      rw [he1, he2, List.append_assoc]

theorem part_emit_append (n : PNode) : ∀ acc out,
    ∃ d, part_emit n acc out = out ++ d ∧ d.Sublist (part_cands n acc) := by
  induction n using PNode.inductionOn with
  | _ k cs ih =>
    intro acc out
    simp only [part_emit, part_cands]
    by_cases hcs : cs.isEmpty = true
    · rw [if_pos hcs, if_pos hcs]
      exact emit_one_append out acc
    · rw [if_neg hcs, if_neg hcs]
      exact part_emit_children_append cs (fun c hc => ih c hc) acc out

/-- C5: in a single call to either enumeration variant on a well-formed
tree, the same normalized prefix+suffix token never appears twice in the
emitted token sequence (the full variant's leaves all spell distinct keys,
and the partial variant's appended tokens form a subsequence of its
pairwise-distinct candidates). -/
theorem claim_C5_no_duplicate_tokens (t : patricia_tree_t) (pfx : CStr)
    (hwf : wf t.root = true) :
    (patricia_full_token_list t pfx).Nodup ∧
    (patricia_part_token_list t pfx).Nodup := by
  constructor
  · cases h : patricia_lookup_node t pfx with
    | none => simp [patricia_full_token_list, h]
    | some n =>
      cases hs : strstr_index pfx n.key with
      | none => simp [patricia_full_token_list, h, hs]
      | some i =>
        have heq : patricia_full_token_list t pfx =
            full_tokens n (pfx.take i) := by
          simp [patricia_full_token_list, h, hs]
        rw [heq]
        exact full_tokens_nodup n _ (wf_lookup_node t.root true pfx n hwf h)
  · cases h : patricia_lookup_node t pfx with
    | none => simp [patricia_part_token_list, h]
    | some n =>
      have heq : patricia_part_token_list t pfx = part_emit n pfx [] := by
        simp [patricia_part_token_list, h]
      rcases part_emit_append n pfx [] with ⟨d, he, hsub⟩
      rw [heq, he]
      simpa using hsub.nodup
        (part_cands_nodup n pfx (wf_lookup_node t.root true pfx n hwf h))

theorem claim_C5_witness :
    wf (patricia_tree_t.mk (.node []
      [.node ['c','a'] [.node ['r'] [], .node ['t'] []],
       .node ['d','o','g'] []])).root = true ∧
    (patricia_full_token_list
      ⟨.node [] [.node ['c','a'] [.node ['r'] [], .node ['t'] []],
                 .node ['d','o','g'] []]⟩ ['c','a']).Nodup ∧
    (patricia_part_token_list
      ⟨.node [] [.node ['c','a'] [.node ['r'] [], .node ['t'] []],
                 .node ['d','o','g'] []]⟩ ['c','a']).Nodup := by
  have h := claim_C5_no_duplicate_tokens
    ⟨.node [] [.node ['c','a'] [.node ['r'] [], .node ['t'] []],
               .node ['d','o','g'] []]⟩ ['c','a'] (by decide)
  exact ⟨by decide, h.1, h.2⟩

/-! ## The token-list views render exactly the C output buffers -/

theorem render_tokens_append (xs ys : List CStr) :
    render_tokens (xs ++ ys) = render_tokens xs ++ render_tokens ys := by
  simp [render_tokens]

theorem full_children_buffer (cs : List PNode)
    (ih : ∀ c ∈ cs, ∀ res rl, patricia_lookup_prefix_full_internal c res rl =
      rl ++ render_tokens (full_tokens c res)) :
    ∀ res rl, patricia_full_children cs res rl =
      rl ++ render_tokens (full_tokens_children cs res) := by
  induction cs with
  | nil =>
    intro res rl
    simp [patricia_full_children, full_tokens_children, render_tokens]
  | cons c rest ihl =>
    intro res rl
    simp only [patricia_full_children, full_tokens_children]
    rw [ih c (by simp) res rl]
    rw [ihl (fun x hx => ih x (by simp [hx])) res]
    rw [render_tokens_append, List.append_assoc]

theorem full_internal_buffer (n : PNode) : ∀ res rl,
    patricia_lookup_prefix_full_internal n res rl =
      rl ++ render_tokens (full_tokens n res) := by
  induction n using PNode.inductionOn with
  | _ k cs ih =>
    intro res rl
    simp only [patricia_lookup_prefix_full_internal, full_tokens]
    by_cases hcs : cs.isEmpty = true
    · have hnil : cs = [] := List.isEmpty_iff.1 hcs
      subst hnil
      simp [patricia_full_children, render_tokens]
    · rw [if_neg hcs, if_neg hcs]
      exact full_children_buffer cs (fun c hc => ih c hc) (res ++ k) rl

/-- The buffer written by one `patricia_lookup_prefix_full` call into an
empty buffer is exactly the rendering of its token list. -/
theorem full_wrapper_buffer (t : patricia_tree_t) (pfx buf : CStr)
    (h : patricia_lookup_prefix_full t pfx [] = some buf) :
    buf = render_tokens (patricia_full_token_list t pfx) := by
  unfold patricia_lookup_prefix_full at h
  unfold patricia_full_token_list
  cases hn : patricia_lookup_node t pfx with
  | none =>
    simp only [hn] at h
    cases h
  | some n =>
    simp only [hn] at h ⊢
    cases hs : strstr_index pfx n.key with
    | none =>
      simp only [hs] at h
      cases h
    | some i =>
      simp only [hs] at h ⊢
      have := Option.some.inj h
      rw [← this, full_internal_buffer]
      simp

theorem part_append_render (out : List CStr) (tok : CStr) :
    part_append (render_tokens out) tok = render_tokens (emit_one out tok) := by
  by_cases hg : is_substring (render_tokens out) tok = true
  · simp [part_append, emit_one, hg]
  · simp only [part_append, emit_one, hg, if_false, Bool.false_eq_true]
    rw [render_tokens_append]
    simp [render_tokens]

theorem part_children_buffer (cs : List PNode)
    (ih : ∀ c ∈ cs, ∀ res out pfx,
      patricia_lookup_prefix_part_internal c res (render_tokens out) pfx =
        render_tokens (part_emit c (pfx ++ res) out)) :
    ∀ res out pfx, patricia_part_children cs res (render_tokens out) pfx =
      render_tokens (part_emit_children cs (pfx ++ res) out) := by
  induction cs with
  | nil =>
    intro res out pfx
    simp [patricia_part_children, part_emit_children]
  | cons c rest ihl =>
    intro res out pfx
    simp only [patricia_part_children, part_emit_children]
    by_cases hd : patricia_key_has_delimiter c.key = true
    · rw [if_pos hd, if_pos hd]
      have hstep : part_append (render_tokens out) (pfx ++ res ++ c.key.dropLast) =
          render_tokens (emit_one out (pfx ++ res ++ c.key.dropLast)) :=
        part_append_render out _
      rw [show pfx ++ res ++ c.key.dropLast = pfx ++ (res ++ c.key.dropLast) from
        List.append_assoc pfx res c.key.dropLast] at hstep
      rw [show pfx ++ (res ++ c.key.dropLast) = pfx ++ res ++ c.key.dropLast from
        (List.append_assoc pfx res c.key.dropLast).symm] at hstep
      rw [hstep]
      exact ihl (fun x hx => ih x (by simp [hx])) res (emit_one out _) pfx
    · rw [if_neg hd, if_neg hd]
      have hrec := ih c (by simp) (res ++ c.key) out pfx
      rw [hrec]
      have : pfx ++ (res ++ c.key) = pfx ++ res ++ c.key :=
        (List.append_assoc pfx res c.key).symm
      rw [this]
      exact ihl (fun x hx => ih x (by simp [hx])) res
        (part_emit c (pfx ++ res ++ c.key) out) pfx

theorem part_internal_buffer (n : PNode) : ∀ res out pfx,
    patricia_lookup_prefix_part_internal n res (render_tokens out) pfx =
      render_tokens (part_emit n (pfx ++ res) out) := by
  induction n using PNode.inductionOn with
  | _ k cs ih =>
    intro res out pfx
    simp only [patricia_lookup_prefix_part_internal, part_emit]
    by_cases hcs : cs.isEmpty = true
    · rw [if_pos hcs, if_pos hcs]
      have hnil : cs = [] := List.isEmpty_iff.1 hcs
      subst hnil
      simp only [patricia_part_children, part_emit_children]
      exact part_append_render out _
    · rw [if_neg hcs, if_neg hcs]
      exact part_children_buffer cs (fun c hc => ih c hc) res out pfx

/-- The buffer written by one `patricia_lookup_prefix_partial` call into an
empty buffer is exactly the rendering of its token list. -/
theorem part_wrapper_buffer (t : patricia_tree_t) (pfx buf : CStr)
    (h : patricia_lookup_prefix_part t pfx [] = some buf) :
    buf = render_tokens (patricia_part_token_list t pfx) := by
  unfold patricia_lookup_prefix_part at h
  unfold patricia_part_token_list
  cases hn : patricia_lookup_node t pfx with
  | none =>
    simp only [hn] at h
    cases h
  | some n =>
    simp only [hn] at h ⊢
    have := Option.some.inj h
    have hb := part_internal_buffer n [] [] pfx
    simp only [render_tokens, List.map_nil, List.flatten_nil] at hb
    rw [← this, hb]
    simp [render_tokens]

end Patricia
